import Mathlib

/-!
Verification of the onebrc aggregator (src/src/lib.rs, src/src/main.rs).

Modelling conventions:
* Bytes are `Nat` (values 0..255); byte strings are `List Nat`.
* Rust `f32` values are modelled as exact rationals (`ℚ`).  The program's
  `f32` constants `f32::MAX` and `f32::MIN` are the exact rationals
  `2^128 - 2^104` and its negation.  Rounding of `f32` arithmetic is
  idealized away; `min`/`max`/`+`/`/` are the exact rational operations.
* Rust `i32`/`u32` accumulators are modelled as unbounded `Int`/`Nat`
  (the idealization matching the exact-rational treatment of floats).
* A Rust panic (including a checked-arithmetic underflow) is modelled as
  `Except.error` with the panic message; `Option.none` marks divergence
  (a loop that provably never exits).
* `HashMap<Vec<u8>, Sample>` is modelled as an association list
  `List (List Nat × Sample)`; lookups are by key equality, so the
  arbitrary iteration order of the hash map is represented by list order.
-/

namespace Onebrc

/-- The exact value of the Rust constant `f32::MAX` = (2 - 2⁻²³)·2¹²⁷. -/
def f32MAX : ℚ := 2 ^ 128 - 2 ^ 104

/-- `struct Sample { min: f32, max: f32, sum: f32, count: u32 }` from src/src/lib.rs
(duplicated verbatim as `struct Record` in src/src/main.rs). -/
structure Sample where
  min : ℚ
  max : ℚ
  sum : ℚ
  count : Nat
  deriving DecidableEq, Repr

/-- `impl Default for Sample`: min = f32::MAX, max = f32::MIN, sum = 0.0, count = 0. -/
def Sample.default : Sample :=
  { min := f32MAX, max := -f32MAX, sum := 0, count := 0 }

/-- `impl From<f32> for Sample`: all three statistics start at the value, count 1. -/
def Sample.from (value : ℚ) : Sample :=
  { min := value, max := value, sum := value, count := 1 }

/-- `Sample::add`: fold one observed value into the running statistic. -/
def Sample.add (self : Sample) (v : ℚ) : Sample :=
  { min := Min.min self.min v
    max := Max.max self.max v
    sum := self.sum + v
    count := self.count + 1 }

/-- `Sample::merge`: combine another running statistic into this one. -/
def Sample.merge (self other : Sample) : Sample :=
  { min := Min.min self.min other.min
    max := Max.max self.max other.max
    sum := self.sum + other.sum
    count := self.count + other.count }

/-- `Sample::mean` = sum / count (count cast to float). -/
def Sample.mean (self : Sample) : ℚ :=
  self.sum / (self.count : ℚ)

/-- `struct Record` of src/src/main.rs: textually identical to `Sample`. -/
structure Record where
  min : ℚ
  max : ℚ
  sum : ℚ
  count : Nat
  deriving DecidableEq, Repr

/-- `impl Default for Record` (src/src/main.rs lines 18-27). -/
def Record.default : Record :=
  { min := f32MAX, max := -f32MAX, sum := 0, count := 0 }

/-- `Record::merge` (src/src/main.rs lines 48-53). -/
def Record.merge (self other : Record) : Record :=
  { min := Min.min self.min other.min
    max := Max.max self.max other.max
    sum := self.sum + other.sum
    count := self.count + other.count }

/-! ## parse_decimal (src/src/lib.rs lines 158-189) -/

/-- One step per byte of `parse_decimal`'s `for` loop, in the source's match
order: `'-'` flips the sign, a digit is accumulated into `n` with the current
sign, `'.'` records the current index in `dot`, anything else panics.
Arguments: remaining bytes, current index `i`, accumulator `n`, `signum`,
recorded `dot` index. -/
def parse_decimal_loop : List Nat → Nat → Int → Int → Nat → Except String (Int × Nat)
  | [], _, n, _, dot => .ok (n, dot)
  | b :: rest, i, n, signum, dot =>
    if b = 45 then
      parse_decimal_loop rest (i + 1) n (signum * (-1)) dot
    else if 48 ≤ b ∧ b ≤ 57 then
      parse_decimal_loop rest (i + 1) (n * 10 + signum * ((b : Int) - 48)) signum dot
    else if b = 46 then
      parse_decimal_loop rest (i + 1) n signum i
    else
      .error "bad decimal character"

/-- The final `match` of `parse_decimal` on `bs.len() - 1 - dot`: the source
special-cases exponents 0..3 before the generic `powi` branch. -/
def scale (n : Int) : Nat → ℚ
  | 0 => (n : ℚ)
  | 1 => (n : ℚ) / 10
  | 2 => (n : ℚ) / 100
  | 3 => (n : ℚ) / 1000
  | k => (n : ℚ) / 10 ^ k

/-- `parse_decimal`: `dot` starts at `bs.len() - 1` (a checked `usize`
subtraction, which panics on the empty slice), the loop scans the bytes, and
the result is `n` scaled down by `10 ^ (bs.len() - 1 - dot)`. -/
def parse_decimal (bs : List Nat) : Except String ℚ :=
  if bs.length = 0 then .error "attempt to subtract with overflow"
  else
    (parse_decimal_loop bs 0 0 1 (bs.length - 1)).map
      (fun p => scale p.1 (bs.length - 1 - p.2))

/-- A byte is an ASCII digit. -/
def isDigit (b : Nat) : Bool := 48 ≤ b && b ≤ 57

/-- The integer formed by concatenating a list of ASCII digit bytes
(most significant first) — the spec's "signed integer formed by
concatenating all the digits", before the sign. -/
def digitsVal (ds : List Nat) : Int :=
  ds.foldl (fun (a : Int) (b : Nat) => a * 10 + ((b : Int) - 48)) 0

/-- Bytes of the grammar sentence `'-'? digit+ ('.' digit+)?`: an optional
leading minus, the integral digits, and (when `frd` is nonempty) a dot
followed by the fractional digits. -/
def decBytes (neg : Bool) (intd frd : List Nat) : List Nat :=
  (if neg then [45] else []) ++ intd ++ (if frd = [] then [] else 46 :: frd)

/-- The spec's value of such a sentence: the signed concatenated-digit
integer divided by 10 to the number of fractional digits. -/
def decValue (neg : Bool) (intd frd : List Nat) : ℚ :=
  (if neg then -1 else 1) * (digitsVal (intd ++ frd) : ℚ) / 10 ^ frd.length

theorem digitsVal_go (ds : List Nat) (a : Int) :
    ds.foldl (fun (a : Int) (b : Nat) => a * 10 + ((b : Int) - 48)) a
      = a * 10 ^ ds.length + digitsVal ds := by
  induction ds generalizing a with
  | nil => simp [digitsVal]
  | cons d ds ih =>
    simp only [List.foldl_cons, List.length_cons, digitsVal] at *
    rw [ih, ih (0 * 10 + ((d : Int) - 48))]
    ring

theorem digitsVal_append (xs ys : List Nat) :
    digitsVal (xs ++ ys) = digitsVal xs * 10 ^ ys.length + digitsVal ys := by
  unfold digitsVal
  rw [List.foldl_append, digitsVal_go]
  simp [digitsVal]

theorem parse_decimal_loop_digits (ds : List Nat) (hds : ∀ b ∈ ds, isDigit b)
    (rest : List Nat) (i : Nat) (n signum : Int) (dot : Nat) :
    parse_decimal_loop (ds ++ rest) i n signum dot
      = parse_decimal_loop rest (i + ds.length)
          (n * 10 ^ ds.length + signum * digitsVal ds) signum dot := by
  induction ds generalizing i n with
  | nil => simp [digitsVal]
  | cons d ds ih =>
    have hd : isDigit d := hds d (List.mem_cons_self d ds)
    have hd' : 48 ≤ d ∧ d ≤ 57 := by
      simp [isDigit] at hd; omega
    have hne : ¬ d = 45 := by omega
    simp only [List.cons_append, parse_decimal_loop, if_neg hne, if_pos hd', List.append_eq]
    rw [ih (fun b hb => hds b (List.mem_cons_of_mem d hb))]
    have hv : digitsVal (d :: ds) = ((d : Int) - 48) * 10 ^ ds.length + digitsVal ds := by
      unfold digitsVal
      rw [List.foldl_cons, digitsVal_go]
      ring_nf
      simp [digitsVal]
      ring
    rw [hv]
    have h1 : i + 1 + ds.length = i + (d :: ds).length := by
      simp only [List.length_cons]; omega
    have h2 : (n * 10 + signum * ((d : Int) - 48)) * 10 ^ ds.length + signum * digitsVal ds
        = n * 10 ^ (d :: ds).length
          + signum * (((d : Int) - 48) * 10 ^ ds.length + digitsVal ds) := by
      simp only [List.length_cons, pow_succ]; ring
    rw [h1, h2]

theorem scale_eq (n : Int) (k : Nat) : scale n k = (n : ℚ) / 10 ^ k := by
  match k with
  | 0 => simp [scale]
  | 1 => norm_num [scale]
  | 2 => norm_num [scale]
  | 3 => norm_num [scale]
  | (m + 4) => rfl

theorem parse_decimal_loop_full (intd frd : List Nat)
    (hintd : ∀ b ∈ intd, isDigit b) (hfrd : ∀ b ∈ frd, isDigit b)
    (i0 : Nat) (s : Int) (dot : Nat) :
    parse_decimal_loop (intd ++ (if frd = [] then [] else 46 :: frd)) i0 0 s dot
      = .ok (s * digitsVal (intd ++ frd),
             if frd = [] then dot else i0 + intd.length) := by
  rw [parse_decimal_loop_digits intd hintd]
  by_cases hfe : frd = []
  · subst hfe
    simp [parse_decimal_loop, digitsVal]
  · simp only [if_neg hfe]
    have hstep : parse_decimal_loop (46 :: frd) (i0 + intd.length)
        (0 * 10 ^ intd.length + s * digitsVal intd) s dot
        = parse_decimal_loop frd (i0 + intd.length + 1)
            (s * digitsVal intd) s (i0 + intd.length) := by
      norm_num [parse_decimal_loop]
    rw [hstep]
    have hfin := parse_decimal_loop_digits frd hfrd []
      (i0 + intd.length + 1) (s * digitsVal intd) s (i0 + intd.length)
    simp only [List.append_nil] at hfin
    rw [hfin]
    simp only [parse_decimal_loop, digitsVal_append]
    congr 2
    ring

/-- Claim C4: on every byte slice matching the grammar
`'-'? digit+ ('.' digit+)?` (encoded by `decBytes`), `parse_decimal` returns
the signed concatenated-digit integer divided by 10 to the number of
fractional digits (`decValue`).  A nonempty `frd` stands for a present
fractional part; `frd = []` is the zero-fractional-digit form. -/
theorem parse_decimal_matches_spec (neg : Bool) (intd frd : List Nat)
    (hint : intd ≠ []) (hintd : ∀ b ∈ intd, isDigit b)
    (hfrd : ∀ b ∈ frd, isDigit b) :
    parse_decimal (decBytes neg intd frd) = .ok (decValue neg intd frd) := by
  have hipos : 0 < intd.length := List.length_pos.mpr hint
  by_cases hfe : frd = []
  · subst hfe
    cases neg
    · have hb : decBytes false intd [] = intd := by simp [decBytes]
      rw [hb]
      unfold parse_decimal
      rw [if_neg (by omega)]
      have h := parse_decimal_loop_full intd [] hintd (by simp) 0 1 (intd.length - 1)
      simp at h
      rw [h]
      simp only [Except.map, Nat.sub_self, scale_eq]
      congr 1
      simp [decValue]
      try push_cast
      try ring
    · have hb : decBytes true intd [] = 45 :: intd := by simp [decBytes]
      rw [hb]
      unfold parse_decimal
      rw [if_neg (by simp)]
      simp only [List.length_cons, Nat.add_sub_cancel]
      have h45 : parse_decimal_loop (45 :: intd) 0 0 1 intd.length
          = parse_decimal_loop intd 1 0 (-1) intd.length := by
        norm_num [parse_decimal_loop]
      rw [h45]
      have h := parse_decimal_loop_full intd [] hintd (by simp) 1 (-1) intd.length
      simp at h
      rw [h]
      simp only [Except.map, Nat.sub_self, scale_eq]
      congr 1
      simp [decValue]
      try push_cast
      try ring
  · cases neg
    · have hb : decBytes false intd frd = intd ++ 46 :: frd := by
        simp [decBytes, hfe]
      rw [hb]
      unfold parse_decimal
      rw [if_neg (by simp)]
      have h := parse_decimal_loop_full intd frd hintd hfrd 0 1
        ((intd ++ 46 :: frd).length - 1)
      simp only [if_neg hfe] at h
      rw [h]
      simp only [Except.map]
      have hfr : (intd ++ 46 :: frd).length - 1 - (0 + intd.length) = frd.length := by
        simp only [List.length_append, List.length_cons]
        omega
      rw [hfr, scale_eq]
      congr 1
      simp [decValue]
      try push_cast
      try ring
    · have hb : decBytes true intd frd = 45 :: (intd ++ 46 :: frd) := by
        simp [decBytes, hfe]
      rw [hb]
      unfold parse_decimal
      rw [if_neg (by simp)]
      simp only [List.length_cons, Nat.add_sub_cancel]
      have h45 : parse_decimal_loop (45 :: (intd ++ 46 :: frd)) 0 0 1
          (intd ++ 46 :: frd).length
          = parse_decimal_loop (intd ++ 46 :: frd) 1 0 (-1)
              (intd ++ 46 :: frd).length := by
        norm_num [parse_decimal_loop]
      rw [h45]
      have h := parse_decimal_loop_full intd frd hintd hfrd 1 (-1)
        (intd ++ 46 :: frd).length
      simp only [if_neg hfe] at h
      rw [h]
      simp only [Except.map]
      have hfr : (intd ++ 46 :: frd).length - (1 + intd.length) = frd.length := by
        simp only [List.length_append, List.length_cons]
        omega
      rw [hfr, scale_eq]
      congr 1
      simp [decValue]
      try push_cast
      try ring

/-- Witness for C4: concrete grammar instances, including the spec's examples
"-5.25" = -21/4, "0" = 0, "100.00" = 100 and the zero-fractional-digit "7" = 7. -/
theorem parse_decimal_matches_spec_witness :
    (([53] : List Nat) ≠ [] ∧ (∀ b ∈ ([53] : List Nat), isDigit b)
      ∧ (∀ b ∈ ([50, 53] : List Nat), isDigit b)) ∧
    parse_decimal (decBytes true [53] [50, 53]) = .ok (decValue true [53] [50, 53]) ∧
    parse_decimal [45, 53, 46, 50, 53] = .ok (-21/4 : ℚ) ∧
    parse_decimal [48] = .ok (0 : ℚ) ∧
    parse_decimal [49, 48, 48, 46, 48, 48] = .ok (100 : ℚ) ∧
    parse_decimal [55] = .ok (7 : ℚ) := by
  refine ⟨⟨by decide, by decide, by decide⟩,
    parse_decimal_matches_spec true [53] [50, 53] (by decide) (by decide) (by decide),
    ?_, ?_, ?_, ?_⟩ <;>
    norm_num [parse_decimal, parse_decimal_loop, scale, Except.map]

/-- Claim C10: on the empty byte slice (the value field of a row like
"key;\n") the `bs.len() - 1` subtraction underflows and `parse_decimal`
panics instead of returning a value. -/
theorem parse_decimal_empty_panics :
    parse_decimal [] = .error "attempt to subtract with overflow" := rfl

/-! ## Merge algebra (claims C2 and C7) -/

theorem merge_default_of_bounds (a : Sample)
    (h1 : a.min ≤ f32MAX) (h2 : -f32MAX ≤ a.max) :
    a.merge Sample.default = a := by
  cases a with
  | mk mn mx sm ct =>
    simp only [Sample.merge, Sample.default, Sample.mk.injEq]
    exact ⟨min_eq_left h1, max_eq_left h2, add_zero sm, rfl⟩

/-- Claim C2 (amended): `Sample::merge` is commutative and associative for
all samples; the count-0 default is neutral exactly on samples whose min is
at most f32::MAX and whose max is at least f32::MIN — because the default
uses the finite constants f32::MAX / f32::MIN rather than infinities, it is
not neutral on a sample holding a value beyond f32::MAX. -/
theorem merge_comm_assoc_neutral :
    (∀ a b : Sample, a.merge b = b.merge a) ∧
    (∀ a b c : Sample, (a.merge b).merge c = a.merge (b.merge c)) ∧
    (∀ a : Sample, a.min ≤ f32MAX → -f32MAX ≤ a.max → a.merge Sample.default = a) := by
  refine ⟨?_, ?_, fun a h1 h2 => merge_default_of_bounds a h1 h2⟩
  · intro a b
    simp only [Sample.merge, min_comm, max_comm, add_comm]
  · intro a b c
    simp only [Sample.merge, min_assoc, max_assoc, add_assoc]

/-- Witness for C2: the in-range sample (2,2,2,1) is left unchanged when the
default is merged into it. -/
theorem merge_comm_assoc_neutral_witness :
    ((Sample.from 2).min ≤ f32MAX ∧ -f32MAX ≤ (Sample.from 2).max) ∧
    (Sample.from 2).merge Sample.default = Sample.from 2 := by
  have h1 : (Sample.from 2).min ≤ f32MAX := by norm_num [Sample.from, f32MAX]
  have h2 : -f32MAX ≤ (Sample.from 2).max := by norm_num [Sample.from, f32MAX]
  exact ⟨⟨h1, h2⟩, merge_comm_assoc_neutral.2.2 (Sample.from 2) h1 h2⟩

/-- Counterexample for C2 as stated: the default is not neutral on every
sample.  For the sample built from the float value f32::MAX + 1 (a quantity
beyond the largest finite f32), merging the default into it changes its min
back down to f32::MAX. -/
theorem merge_default_not_neutral :
    (Sample.from (f32MAX + 1)).merge Sample.default ≠ Sample.from (f32MAX + 1) := by
  intro h
  have hmin : Min.min (f32MAX + 1) f32MAX = f32MAX + 1 :=
    congrArg Sample.min h
  rw [min_eq_right (by norm_num)] at hmin
  norm_num at hmin

/-- Counterexample for C7 as stated: the freshly-created aggregate's min is
the finite constant f32::MAX, not +∞ — the concrete float quantity
f32::MAX + 1 exceeds it, which no value can do to +∞ (likewise max is
-f32::MAX, not -∞). -/
theorem default_min_not_infinite :
    Sample.default.min = f32MAX ∧ ¬ (f32MAX + 1 ≤ Sample.default.min) := by
  constructor
  · rfl
  · simp only [Sample.default]
    norm_num

/-- Claim C7 (amended): the freshly-created (default) aggregate of both
src/src/lib.rs (`Sample`) and src/src/main.rs (`Record`) has exactly
min = f32::MAX, max = f32::MIN = -f32::MAX, sum = 0, count = 0, and it is an
identity for merge on every sample whose min/max are within the finite f32
range. -/
theorem default_fields_and_identity :
    Sample.default = { min := f32MAX, max := -f32MAX, sum := 0, count := 0 } ∧
    Record.default = { min := f32MAX, max := -f32MAX, sum := 0, count := 0 } ∧
    (∀ a : Sample, a.min ≤ f32MAX → -f32MAX ≤ a.max → a.merge Sample.default = a) := by
  exact ⟨rfl, rfl, fun a h1 h2 => merge_default_of_bounds a h1 h2⟩

/-- Witness for C7: applying the amended identity at the sample (0,0,0,1). -/
theorem default_fields_and_identity_witness :
    ((Sample.from 0).min ≤ f32MAX ∧ -f32MAX ≤ (Sample.from 0).max) ∧
    (Sample.from 0).merge Sample.default = Sample.from 0 := by
  have h1 : (Sample.from 0).min ≤ f32MAX := by norm_num [Sample.from, f32MAX]
  have h2 : -f32MAX ≤ (Sample.from 0).max := by norm_num [Sample.from, f32MAX]
  exact ⟨⟨h1, h2⟩, default_fields_and_identity.2.2 (Sample.from 0) h1 h2⟩

/-! ## Tables -/

/-- `type Table = HashMap<Vec<u8>, Sample>`, modelled as an association
list; the hash map's arbitrary iteration order is the list order. -/
abbrev Table := List (List Nat × Sample)

/-- `HashMap::get`: the value stored under a key. -/
def tlookup : Table → List Nat → Option Sample
  | [], _ => none
  | (k2, s) :: rest, k => if k2 = k then some s else tlookup rest k

/-- `HashMap::get_mut` followed by a mutation: rewrite the (unique) entry
stored under `k` in place. -/
def updateEntry : Table → List Nat → (Sample → Sample) → Table
  | [], _, _ => []
  | (k2, s) :: rest, k, f =>
    if k2 = k then (k2, f s) :: rest else (k2, s) :: updateEntry rest k f

/-- `insert_or_update` (src/src/lib.rs lines 58-65, duplicated in
src/src/main.rs): update the stored sample in place via `add` if the key is
present, otherwise insert a fresh one-element sample. -/
def insert_or_update (table : Table) (k : List Nat) (v : ℚ) : Table :=
  match tlookup table k with
  | some _ => updateEntry table k (fun s => s.add v)
  | none => table ++ [(k, Sample.from v)]

/-! ## The buffered reader (std::io::BufReader with capacity C) -/

/-- Reader state: the bytes currently sitting in the internal buffer, and
the bytes of the source not yet pulled into it. -/
structure RSt where
  buffered : List Nat
  remaining : List Nat
  deriving DecidableEq, Repr

/-- Unconsumed bytes. -/
def RSt.total (s : RSt) : Nat := s.buffered.length + s.remaining.length

/-- `BufReader::fill_buf`: return the buffered bytes if any are left,
otherwise move the next at-most-`C` bytes of the source into the buffer and
return those (empty exactly at end of input). -/
def fillBuf (C : Nat) (s : RSt) : List Nat × RSt :=
  if s.buffered = [] then
    (s.remaining.take C, ⟨s.remaining.take C, s.remaining.drop C⟩)
  else (s.buffered, s)

/-- `BufReader::consume`: drop `n` bytes from the front of the buffer. -/
def consume (n : Nat) (s : RSt) : RSt :=
  ⟨s.buffered.drop n, s.remaining⟩

theorem fillBuf_buffered (C : Nat) (s : RSt) :
    ((fillBuf C s).2).buffered = (fillBuf C s).1 := by
  unfold fillBuf; split <;> rfl

theorem fillBuf_total (C : Nat) (s : RSt) : ((fillBuf C s).2).total = s.total := by
  unfold fillBuf RSt.total
  split
  · rename_i hsp
    simp only [hsp, List.length_take, List.length_drop, List.length_nil]
    omega
  · rfl

theorem consume_total_le (n : Nat) (s : RSt) : (consume n s).total ≤ s.total := by
  unfold consume RSt.total
  simp only [List.length_drop]
  omega

theorem consume_total_lt (n : Nat) (s : RSt) (hn : 0 < n) (hb : s.buffered ≠ []) :
    (consume n s).total < s.total := by
  have hl : 0 < s.buffered.length := List.length_pos.mpr hb
  unfold consume RSt.total
  simp only [List.length_drop]
  omega

/-- The index of the first occurrence of byte `c`
(`buf.iter().enumerate().find(...)`). -/
def findByte (c : Nat) : List Nat → Option Nat
  | [] => none
  | b :: rest => if b = c then some 0 else (findByte c rest).map (· + 1)

/-- Resuming the same enumerated iterator after index `i0 - 1`: the first
occurrence of `c` at an index ≥ `i0`. -/
def findByteFrom (c : Nat) (l : List Nat) (i0 : Nat) : Option Nat :=
  (findByte c (l.drop i0)).map (· + i0)

theorem findByte_eq_none (c : Nat) (l : List Nat) (h : c ∉ l) :
    findByte c l = none := by
  induction l with
  | nil => rfl
  | cons b rest ih =>
    have hb : ¬ b = c := fun hbc => h (by simp [hbc])
    simp [findByte, hb, ih (fun hc => h (List.mem_cons_of_mem b hc))]

theorem findByte_append_none (c : Nat) (xs ys : List Nat) (h : c ∉ xs) :
    findByte c (xs ++ ys) = (findByte c ys).map (· + xs.length) := by
  induction xs with
  | nil => simp
  | cons b rest ih =>
    have hb : ¬ b = c := fun hbc => h (by simp [hbc])
    have hr : c ∉ rest := fun hc => h (List.mem_cons_of_mem b hc)
    simp only [List.cons_append, findByte, if_neg hb, List.append_eq, ih hr, List.length_cons]
    cases findByte c ys with
    | none => rfl
    | some x =>
      simp
      omega

theorem findByte_first (c : Nat) (A T : List Nat) (hA : c ∉ A) :
    findByte c (A ++ c :: T) = some A.length := by
  rw [findByte_append_none c A (c :: T) hA]
  simp [findByte]

/-! ## produce_table (src/src/lib.rs lines 68-155, duplicated in main.rs) -/

/-- Result of one iteration of `produce_table`'s `while` loop. -/
inductive StepRes where
  | done : StepRes
  | fail : String → StepRes
  | next : Table → RSt → StepRes
  deriving DecidableEq, Repr

/-- Emit one row found entirely inside the current buffer: `';'` at `sep`,
`'\n'` at `e`; the name is `buf[..sep]`, the value bytes `buf[sep+1..e]`
(source lines 83-90). -/
def stepEmit (table : Table) (buf : List Nat) (sep e : Nat) (s : RSt) : StepRes :=
  match parse_decimal ((buf.drop (sep + 1)).take (e - sep - 1)) with
  | .error m => .fail m
  | .ok v => .next (insert_or_update table (buf.take sep) v) (consume (e + 1) s)

/-- The source's repeated "didn't get to the newline" block (lines 92-109 and
130-147): the stash holds everything read of the row so far with the
separator recorded at `sep`; refill, look for `'\n'`, extend the stash to it
and split the stash at `sep`; panic if the fresh page has no newline. -/
def stepNoNl (C : Nat) (table : Table) (stash : List Nat) (sep : Nat) (s2 : RSt) : StepRes :=
  match findByte 10 (fillBuf C s2).1 with
  | some e =>
    match parse_decimal ((stash ++ ((fillBuf C s2).1).take e).drop (sep + 1)) with
    | .error m => .fail m
    | .ok v =>
      .next (insert_or_update table ((stash ++ ((fillBuf C s2).1).take e).take sep) v)
        (consume (e + 1) (fillBuf C s2).2)
  | none => .fail "Missing newline"

/-- The source's "didn't find the separator" block (lines 112-149): the
stash holds the whole previous page; refill and look for `';'` in the fresh
page.  If found together with a newline, the name is the stash plus the page
up to `sep`; if the newline is missing the repeated block above runs with
the stash extended by the whole page — splitting at the second-page index
`sep`; if even this page has no separator, the iteration falls through
(the source's `if let` has no `else`). -/
def stepNoSep (C : Nat) (table : Table) (stash : List Nat) (s2 : RSt) : StepRes :=
  match findByte 59 (fillBuf C s2).1 with
  | some sep =>
    match findByteFrom 10 (fillBuf C s2).1 (sep + 1) with
    | some e =>
      match parse_decimal ((((fillBuf C s2).1).drop (sep + 1)).take (e - sep - 1)) with
      | .error m => .fail m
      | .ok v =>
        .next (insert_or_update table (stash ++ ((fillBuf C s2).1).take sep) v)
          (consume (e + 1) (fillBuf C s2).2)
    | none =>
      stepNoNl C table (stash ++ (fillBuf C s2).1) sep
        (consume ((fillBuf C s2).1).length (fillBuf C s2).2)
  | none => .next table (fillBuf C s2).2

/-- The body of one iteration of `produce_table`'s `while` loop, after the
buffer `buf` has been filled (mirrors the nesting of source lines 76-152). -/
def stepBuf (C : Nat) (table : Table) (buf : List Nat) (s1 : RSt) : StepRes :=
  if buf = [] then .done
  else
    match findByte 59 buf with
    | some sep =>
      match findByteFrom 10 buf (sep + 1) with
      | some e => stepEmit table buf sep e s1
      | none => stepNoNl C table buf sep (consume buf.length s1)
    | none => stepNoSep C table buf (consume buf.length s1)

/-- One iteration of the `while let Ok(mut buf) = reader.fill_buf()` loop. -/
def produceStep (C : Nat) (table : Table) (s0 : RSt) : StepRes :=
  stepBuf C table (fillBuf C s0).1 (fillBuf C s0).2

theorem stepEmit_next_total {t : Table} {buf : List Nat} {sep e : Nat} {s : RSt}
    {t2 : Table} {s2 : RSt} (h : stepEmit t buf sep e s = .next t2 s2) :
    s2 = consume (e + 1) s := by
  unfold stepEmit at h
  rcases hp : parse_decimal ((buf.drop (sep + 1)).take (e - sep - 1)) with m | v
  · simp only [hp] at h
    exact absurd h (by simp)
  · simp only [hp] at h
    cases h
    rfl

theorem stepNoNl_next_total {C : Nat} {t : Table} {stash : List Nat} {sep : Nat}
    {s2 : RSt} {t2 : Table} {s3 : RSt} (h : stepNoNl C t stash sep s2 = .next t2 s3) :
    s3.total ≤ s2.total := by
  unfold stepNoNl at h
  have hft := fillBuf_total C s2
  rcases he : findByte 10 (fillBuf C s2).1 with _ | e
  · simp only [he] at h
    exact absurd h (by simp)
  · simp only [he] at h
    rcases hp : parse_decimal ((stash ++ ((fillBuf C s2).1).take e).drop (sep + 1))
      with m | v
    · simp only [hp] at h
      exact absurd h (by simp)
    · simp only [hp] at h
      cases h
      have := consume_total_le (e + 1) (fillBuf C s2).2
      omega

theorem stepNoSep_next_total {C : Nat} {t : Table} {stash : List Nat}
    {s2 : RSt} {t2 : Table} {s3 : RSt} (h : stepNoSep C t stash s2 = .next t2 s3) :
    s3.total ≤ s2.total := by
  unfold stepNoSep at h
  have hft := fillBuf_total C s2
  rcases hs : findByte 59 (fillBuf C s2).1 with _ | sep
  · simp only [hs] at h
    cases h
    omega
  · simp only [hs] at h
    rcases he : findByteFrom 10 (fillBuf C s2).1 (sep + 1) with _ | e
    · simp only [he] at h
      have h2 := stepNoNl_next_total h
      have := consume_total_le ((fillBuf C s2).1).length (fillBuf C s2).2
      omega
    · simp only [he] at h
      rcases hp : parse_decimal ((((fillBuf C s2).1).drop (sep + 1)).take (e - sep - 1))
        with m | v
      · simp only [hp] at h
        exact absurd h (by simp)
      · simp only [hp] at h
        cases h
        have := consume_total_le (e + 1) (fillBuf C s2).2
        omega

theorem stepBuf_next_total {C : Nat} {t : Table} {s1 : RSt} {t2 : Table} {s2 : RSt}
    (h : stepBuf C t s1.buffered s1 = .next t2 s2) : s2.total < s1.total := by
  unfold stepBuf at h
  by_cases hbe : s1.buffered = []
  · rw [if_pos hbe] at h
    exact absurd h (by simp)
  rw [if_neg hbe] at h
  have hcp : (consume s1.buffered.length s1).total < s1.total :=
    consume_total_lt _ s1 (List.length_pos.mpr hbe) hbe
  rcases hs : findByte 59 s1.buffered with _ | sep
  · simp only [hs] at h
    have := stepNoSep_next_total h
    omega
  · simp only [hs] at h
    rcases he : findByteFrom 10 s1.buffered (sep + 1) with _ | e
    · simp only [he] at h
      have := stepNoNl_next_total h
      omega
    · simp only [he] at h
      have h2 := stepEmit_next_total h
      subst h2
      exact consume_total_lt _ s1 (by omega) hbe

theorem produceStep_next_total {C : Nat} {t : Table} {s : RSt} {t2 : Table} {s2 : RSt}
    (h : produceStep C t s = .next t2 s2) : s2.total < s.total := by
  unfold produceStep at h
  rw [← fillBuf_buffered C s] at h
  have := stepBuf_next_total h
  have := fillBuf_total C s
  omega

/-- The `while` loop of `produce_table`: iterate `produceStep` until it
reports end of input (`.ok` with the finished table) or panics (`.error`). -/
def produceLoop (C : Nat) (table : Table) (s : RSt) : Except String Table :=
  match h : produceStep C table s with
  | .done => .ok table
  | .fail m => .error m
  | .next t2 s2 => produceLoop C t2 s2
termination_by s.total
decreasing_by exact produceStep_next_total h

theorem produceLoop_done {C : Nat} {t : Table} {s : RSt}
    (h : produceStep C t s = .done) : produceLoop C t s = .ok t := by
  conv_lhs => unfold produceLoop
  split <;> simp_all

theorem produceLoop_fail {C : Nat} {t : Table} {s : RSt} {m : String}
    (h : produceStep C t s = .fail m) : produceLoop C t s = .error m := by
  conv_lhs => unfold produceLoop
  split <;> simp_all

theorem produceLoop_next {C : Nat} {t : Table} {s : RSt} {t2 : Table} {s2 : RSt}
    (h : produceStep C t s = .next t2 s2) : produceLoop C t s = produceLoop C t2 s2 := by
  conv_lhs => unfold produceLoop
  split <;> simp_all

/-- `produce_table` over a byte source, read through a page-size-`C`
BufReader (the binary uses C = 2 MiB). -/
def produce_table (C : Nat) (input : List Nat) : Except String Table :=
  produceLoop C [] ⟨[], input⟩

/-! ## Rows and well-formed inputs -/

/-- A row of the input file: key bytes and value bytes. -/
structure Row where
  key : List Nat
  val : List Nat
  deriving DecidableEq, Repr

/-- The encoded bytes of a row: `key ';' value '\n'`. -/
def Row.bytes (r : Row) : List Nat := r.key ++ 59 :: (r.val ++ [10])

/-- The bytes of a list of rows, in file order. -/
def rowsBytes (rows : List Row) : List Nat := (rows.map Row.bytes).flatten

/-- The parsed value of a row. -/
def Row.value (r : Row) : ℚ :=
  match parse_decimal r.val with
  | .ok v => v
  | .error _ => 0

/-- A well-formed row: the key contains neither the separator nor a newline,
and the value field is a nonempty string over the decimal alphabet
`{'-', '.', '0'..'9'}`. -/
def WFRow (r : Row) : Prop :=
  (∀ b ∈ r.key, b ≠ 59 ∧ b ≠ 10) ∧ r.val ≠ [] ∧
    (∀ b ∈ r.val, b = 45 ∨ b = 46 ∨ isDigit b)

instance : DecidablePred WFRow := fun r => by
  unfold WFRow
  infer_instance

/-- Folding the rows into a table in file order — what one worker's loop
computes row by row. -/
def produceList (t : Table) (rows : List Row) : Table :=
  rows.foldl (fun t r => insert_or_update t r.key r.value) t

theorem rowsBytes_cons (r : Row) (rows : List Row) :
    rowsBytes (r :: rows) = r.bytes ++ rowsBytes rows := by
  simp [rowsBytes]

theorem parse_decimal_loop_no_error (bs : List Nat)
    (h : ∀ b ∈ bs, b = 45 ∨ b = 46 ∨ isDigit b) :
    ∀ (i : Nat) (n s : Int) (dot : Nat), ∃ out, parse_decimal_loop bs i n s dot = .ok out := by
  induction bs with
  | nil => exact fun i n s dot => ⟨_, rfl⟩
  | cons b rest ih =>
    intro i n s dot
    have hb := h b (List.mem_cons_self b rest)
    have hr : ∀ x ∈ rest, x = 45 ∨ x = 46 ∨ isDigit x :=
      fun x hx => h x (List.mem_cons_of_mem b hx)
    unfold parse_decimal_loop
    rcases hb with hb | hb | hb
    · subst hb
      rw [if_pos rfl]
      exact ih hr ..
    · subst hb
      rw [if_neg (by norm_num), if_neg (by norm_num), if_pos rfl]
      exact ih hr ..
    · have hd : 48 ≤ b ∧ b ≤ 57 := by
        simp [isDigit] at hb
        omega
      rw [if_neg (by omega), if_pos hd]
      exact ih hr ..

theorem parse_val_ok (r : Row) (hne : r.val ≠ [])
    (hall : ∀ b ∈ r.val, b = 45 ∨ b = 46 ∨ isDigit b) :
    parse_decimal r.val = .ok r.value := by
  obtain ⟨out, hout⟩ := parse_decimal_loop_no_error r.val hall 0 0 1 (r.val.length - 1)
  have hlen : ¬ r.val.length = 0 := by simpa using hne
  have hpd : parse_decimal r.val = .ok (scale out.1 (r.val.length - 1 - out.2)) := by
    unfold parse_decimal
    rw [if_neg hlen, hout]
    rfl
  rw [hpd]
  unfold Row.value
  rw [hpd]

/-! ### Evaluating one loop iteration on a well-formed stream -/

theorem take_len_append (A X : List Nat) : (A ++ X).take A.length = A := by simp

theorem drop_len_append (A X : List Nat) : (A ++ X).drop A.length = X := by simp

theorem append_cons_drop (K : List Nat) (c : Nat) (X : List Nat) :
    (K ++ c :: X).drop (K.length + 1) = X := by
  rw [show K ++ c :: X = (K ++ [c]) ++ X by simp,
    show K.length + 1 = (K ++ [c]).length by simp]
  exact drop_len_append ..

theorem append_cons_take (K : List Nat) (c : Nat) (X : List Nat) :
    (K ++ c :: X).take K.length = K := by
  rw [show K ++ c :: X = K ++ (c :: X) from rfl]
  exact take_len_append ..

/-- Branch 1 of the loop body on a buffer holding a whole row: the row is
emitted and exactly its bytes are consumed. -/
theorem stepBuf_wholerow (C : Nat) (t : Table) (K V W : List Nat) (v : ℚ) (s1 : RSt)
    (h59K : 59 ∉ K) (h10V : 10 ∉ V) (hv : parse_decimal V = .ok v) :
    stepBuf C t (K ++ 59 :: (V ++ 10 :: W)) s1
      = .next (insert_or_update t K v) (consume (K.length + V.length + 2) s1) := by
  have hne : K ++ 59 :: (V ++ 10 :: W) ≠ [] := by simp
  have hsep : findByte 59 (K ++ 59 :: (V ++ 10 :: W)) = some K.length :=
    findByte_first 59 K _ h59K
  have hdrop : (K ++ 59 :: (V ++ 10 :: W)).drop (K.length + 1) = V ++ 10 :: W :=
    append_cons_drop ..
  have hnl : findByteFrom 10 (K ++ 59 :: (V ++ 10 :: W)) (K.length + 1)
      = some (V.length + (K.length + 1)) := by
    unfold findByteFrom
    rw [hdrop, findByte_first 10 V W h10V]
    rfl
  unfold stepBuf
  simp only [if_neg hne, hsep, hnl]
  unfold stepEmit
  have harith : V.length + (K.length + 1) - K.length - 1 = V.length := by omega
  have htake : (V ++ 10 :: W).take V.length = V := take_len_append ..
  simp only [hdrop, harith, htake, hv]
  have hname : (K ++ 59 :: (V ++ 10 :: W)).take K.length = K := append_cons_take ..
  have he1 : V.length + (K.length + 1) + 1 = K.length + V.length + 2 := by omega
  simp only [hname, he1]

/-- The "didn't get to the newline" block on an empty buffer whose source
continues with the rest of the current row: the row completes from the stash
and the fresh page. -/
theorem stepNoNl_page (C : Nat) (t : Table) (stash : List Nat) (sep : Nat)
    (V2 Z : List Nat) (v : ℚ) (h10V : 10 ∉ V2) (hlen : V2.length + 1 ≤ C)
    (hv : parse_decimal ((stash ++ V2).drop (sep + 1)) = .ok v) :
    stepNoNl C t stash sep ⟨[], (V2 ++ [10]) ++ Z⟩
      = .next (insert_or_update t ((stash ++ V2).take sep) v)
          ⟨Z.take (C - (V2.length + 1)), Z.drop (C - (V2.length + 1))⟩ := by
  have hfb : fillBuf C ⟨[], (V2 ++ [10]) ++ Z⟩
      = (((V2 ++ [10]) ++ Z).take C,
         ⟨((V2 ++ [10]) ++ Z).take C, ((V2 ++ [10]) ++ Z).drop C⟩) := by
    simp [fillBuf]
  have hbuf : ((V2 ++ [10]) ++ Z).take C = V2 ++ 10 :: Z.take (C - (V2.length + 1)) := by
    rw [List.take_append_eq_append_take,
      List.take_of_length_le (by simp; omega)]
    simp
  have hW : findByte 10 (V2 ++ 10 :: Z.take (C - (V2.length + 1))) = some V2.length :=
    findByte_first 10 V2 _ h10V
  have htk : (V2 ++ 10 :: Z.take (C - (V2.length + 1))).take V2.length = V2 :=
    append_cons_take ..
  unfold stepNoNl
  simp only [hfb, hbuf, hW, htk, hv]
  have hd1 : (V2 ++ 10 :: Z.take (C - (V2.length + 1))).drop (V2.length + 1)
      = Z.take (C - (V2.length + 1)) := append_cons_drop ..
  have hd2 : ((V2 ++ [10]) ++ Z).drop C = Z.drop (C - (V2.length + 1)) := by
    rw [List.drop_append_eq_append_drop,
      List.drop_eq_nil_of_le (by simp; omega)]
    simp
  simp only [consume, hd1, hd2]

/-- The "didn't find the separator" block on an empty buffer whose source
continues with the rest of the current row (which fits in one page): the row
completes with its name prefixed by the stash. -/
theorem stepNoSep_page (C : Nat) (t : Table) (stash : List Nat)
    (K2 V Z : List Nat) (v : ℚ) (h59K : 59 ∉ K2) (h10V : 10 ∉ V)
    (hv : parse_decimal V = .ok v) (hlen : K2.length + V.length + 2 ≤ C) :
    stepNoSep C t stash ⟨[], (K2 ++ 59 :: (V ++ [10])) ++ Z⟩
      = .next (insert_or_update t (stash ++ K2) v)
          ⟨Z.take (C - (K2.length + V.length + 2)),
           Z.drop (C - (K2.length + V.length + 2))⟩ := by
  have hfb : fillBuf C ⟨[], (K2 ++ 59 :: (V ++ [10])) ++ Z⟩
      = (((K2 ++ 59 :: (V ++ [10])) ++ Z).take C,
         ⟨((K2 ++ 59 :: (V ++ [10])) ++ Z).take C, ((K2 ++ 59 :: (V ++ [10])) ++ Z).drop C⟩) := by
    simp [fillBuf]
  have hrow : (K2 ++ 59 :: (V ++ [10])).length = K2.length + V.length + 2 := by
    simp
    omega
  have hbuf : ((K2 ++ 59 :: (V ++ [10])) ++ Z).take C
      = K2 ++ 59 :: (V ++ 10 :: Z.take (C - (K2.length + V.length + 2))) := by
    rw [List.take_append_eq_append_take,
      List.take_of_length_le (by rw [hrow]; omega), hrow]
    simp
  have hsep : findByte 59 (K2 ++ 59 :: (V ++ 10 :: Z.take (C - (K2.length + V.length + 2))))
      = some K2.length := findByte_first 59 K2 _ h59K
  have hdrop : (K2 ++ 59 :: (V ++ 10 :: Z.take (C - (K2.length + V.length + 2)))).drop
      (K2.length + 1) = V ++ 10 :: Z.take (C - (K2.length + V.length + 2)) :=
    append_cons_drop ..
  have hnl : findByteFrom 10
      (K2 ++ 59 :: (V ++ 10 :: Z.take (C - (K2.length + V.length + 2)))) (K2.length + 1)
      = some (V.length + (K2.length + 1)) := by
    unfold findByteFrom
    rw [hdrop, findByte_first 10 V _ h10V]
    rfl
  unfold stepNoSep
  simp only [hfb, hbuf, hsep, hnl]
  have harith : V.length + (K2.length + 1) - K2.length - 1 = V.length := by omega
  have htake : (V ++ 10 :: Z.take (C - (K2.length + V.length + 2))).take V.length = V :=
    take_len_append ..
  simp only [hdrop, harith, htake, hv]
  have hname : (K2 ++ 59 :: (V ++ 10 :: Z.take (C - (K2.length + V.length + 2)))).take
      K2.length = K2 := append_cons_take ..
  have hd1 : (K2 ++ 59 :: (V ++ 10 :: Z.take (C - (K2.length + V.length + 2)))).drop
      (V.length + (K2.length + 1) + 1) = Z.take (C - (K2.length + V.length + 2)) := by
    rw [show K2 ++ 59 :: (V ++ 10 :: Z.take (C - (K2.length + V.length + 2)))
        = (K2 ++ 59 :: (V ++ [10])) ++ Z.take (C - (K2.length + V.length + 2)) by simp,
      show V.length + (K2.length + 1) + 1 = (K2 ++ 59 :: (V ++ [10])).length by
        rw [hrow]; omega]
    exact drop_len_append ..
  have hd2 : ((K2 ++ 59 :: (V ++ [10])) ++ Z).drop C
      = Z.drop (C - (K2.length + V.length + 2)) := by
    rw [List.drop_append_eq_append_drop,
      List.drop_eq_nil_of_le (by rw [hrow]; omega), hrow]
    simp
  simp only [consume, hname, hd1, hd2]

/-- One loop iteration on a stream whose unconsumed contents start at a
well-formed row (key `K`, value bytes `V`) no longer than one page: the row
is emitted exactly once, with its exact key and value, and exactly its bytes
are consumed — wherever the page boundary falls inside the row. -/
theorem produceStep_row (C : Nat) (K V Z b rem : List Nat) (t : Table) (v : ℚ)
    (h59K : 59 ∉ K) (h10K : 10 ∉ K) (h59V : 59 ∉ V) (h10V : 10 ∉ V)
    (hparse : parse_decimal V = .ok v)
    (hlen : K.length + V.length + 2 ≤ C)
    (hsplit : b ++ rem = (K ++ 59 :: (V ++ [10])) ++ Z) :
    ∃ b2 rem2, produceStep C t ⟨b, rem⟩
        = .next (insert_or_update t K v) ⟨b2, rem2⟩ ∧ b2 ++ rem2 = Z := by
  have hL : (K ++ 59 :: (V ++ [10])).length = K.length + V.length + 2 := by
    simp only [List.length_append, List.length_cons, List.length_nil]
    omega
  by_cases hbe : b = []
  · -- empty buffer: the whole row arrives inside the next fresh page
    subst hbe
    rw [List.nil_append] at hsplit
    have hfb : fillBuf C ⟨[], rem⟩ = (rem.take C, ⟨rem.take C, rem.drop C⟩) := by
      simp [fillBuf]
    have hbuf2 : rem.take C
        = (K ++ 59 :: (V ++ [10])) ++ Z.take (C - (K.length + V.length + 2)) := by
      rw [hsplit, List.take_append_eq_append_take,
        List.take_of_length_le (by rw [hL]; omega), hL]
    have hbuf : rem.take C
        = K ++ 59 :: (V ++ 10 :: Z.take (C - (K.length + V.length + 2))) := by
      rw [hbuf2]
      simp
    have hdropC : rem.drop C = Z.drop (C - (K.length + V.length + 2)) := by
      rw [hsplit, List.drop_append_eq_append_drop,
        List.drop_eq_nil_of_le (by rw [hL]; omega), hL, List.nil_append]
    refine ⟨Z.take (C - (K.length + V.length + 2)),
      Z.drop (C - (K.length + V.length + 2)), ?_, List.take_append_drop _ _⟩
    unfold produceStep
    simp only [hfb]
    rw [hbuf, stepBuf_wholerow C t K V _ _ _ h59K h10V hparse]
    simp only [consume]
    have hd : (K ++ 59 :: (V ++ 10 :: Z.take (C - (K.length + V.length + 2)))).drop
        (K.length + V.length + 2) = Z.take (C - (K.length + V.length + 2)) := by
      rw [show K ++ 59 :: (V ++ 10 :: Z.take (C - (K.length + V.length + 2)))
          = (K ++ 59 :: (V ++ [10])) ++ Z.take (C - (K.length + V.length + 2)) by simp,
        show K.length + V.length + 2 = (K ++ 59 :: (V ++ [10])).length from hL.symm]
      exact drop_len_append ..
    rw [hd, hdropC]
  · -- nonempty leftover buffer `b`, a prefix of the row (or holding it whole)
    have hfb : fillBuf C ⟨b, rem⟩ = (b, ⟨b, rem⟩) := by
      simp [fillBuf, hbe]
    have hbpre : b = ((K ++ 59 :: (V ++ [10])) ++ Z).take b.length := by
      rw [← hsplit]
      exact (take_len_append b rem).symm
    have hremeq : rem = ((K ++ 59 :: (V ++ [10])) ++ Z).drop b.length := by
      rw [← hsplit]
      exact (drop_len_append b rem).symm
    have hbpos : 0 < b.length := List.length_pos.mpr hbe
    have hassoc1 : (K ++ 59 :: (V ++ [10])) ++ Z = K ++ (59 :: (V ++ [10]) ++ Z) := by
      simp
    have hassoc2 : (K ++ 59 :: (V ++ [10])) ++ Z = (K ++ [59]) ++ ((V ++ [10]) ++ Z) := by
      simp
    have hK59len : (K ++ [59]).length = K.length + 1 := by simp
    have hV10len : (V ++ [10]).length = V.length + 1 := by simp
    rcases Nat.lt_or_ge b.length (K.length + 1) with hb1 | hb1
    · -- the buffer sits inside the key: no separator yet
      have hbK : b = K.take b.length := by
        conv_lhs => rw [hbpre]
        rw [hassoc1, List.take_append_eq_append_take,
          Nat.sub_eq_zero_of_le (by omega), List.take_zero, List.append_nil]
      have h59b : 59 ∉ b := fun hm => h59K (List.take_subset _ _ (hbK ▸ hm))
      have hfind : findByte 59 b = none := findByte_eq_none _ _ h59b
      have hrem : rem = (K.drop b.length ++ 59 :: (V ++ [10])) ++ Z := by
        conv_lhs => rw [hremeq]
        rw [hassoc1, List.drop_append_eq_append_drop,
          Nat.sub_eq_zero_of_le (by omega), List.drop_zero]
        simp
      have h59K2 : 59 ∉ K.drop b.length := fun hm => h59K (List.drop_subset _ _ hm)
      have hlen2 : (K.drop b.length).length + V.length + 2 ≤ C := by
        simp only [List.length_drop]
        omega
      refine ⟨Z.take (C - ((K.drop b.length).length + V.length + 2)),
        Z.drop (C - ((K.drop b.length).length + V.length + 2)), ?_,
        List.take_append_drop _ _⟩
      unfold produceStep
      simp only [hfb]
      unfold stepBuf
      simp only [if_neg hbe, hfind]
      have hcons : consume b.length ⟨b, rem⟩ = ⟨[], rem⟩ := by
        simp [consume]
      rw [hcons, hrem, stepNoSep_page C t b (K.drop b.length) V Z v h59K2 h10V hparse hlen2]
      have hname : b ++ K.drop b.length = K := by
        have h0 : b ++ K.drop b.length = K.take b.length ++ K.drop b.length :=
          congrArg (fun x => x ++ K.drop b.length) hbK
        rw [h0, List.take_append_drop]
      rw [hname]
    · rcases Nat.lt_or_ge b.length (K.length + V.length + 2) with hb2 | hb2
      · -- the buffer holds the key and part of the value: separator yes, newline no
        have hm1 : b.length - (K.length + 1) ≤ V.length := by omega
        have hbK : b = K ++ 59 :: V.take (b.length - (K.length + 1)) := by
          have e1 : ((K ++ [59]) ++ ((V ++ [10]) ++ Z)).take b.length
              = (K ++ [59]) ++ ((V ++ [10]) ++ Z).take (b.length - (K.length + 1)) := by
            rw [List.take_append_eq_append_take,
              List.take_of_length_le (show (K ++ [59]).length ≤ b.length from by
                rw [hK59len]; omega), hK59len]
          have z1 : b.length - (K.length + 1) - (V ++ [10]).length = 0 := by
            rw [hV10len]; omega
          have z2 : b.length - (K.length + 1) - V.length = 0 := by omega
          have e2 : ((V ++ [10]) ++ Z).take (b.length - (K.length + 1))
              = V.take (b.length - (K.length + 1)) := by
            rw [List.take_append_eq_append_take, z1,
              List.take_zero, List.append_nil, List.take_append_eq_append_take, z2,
              List.take_zero, List.append_nil]
          conv_lhs => rw [hbpre]
          rw [hassoc2, e1, e2]
          simp
        have hsepb : findByte 59 b = some K.length := by
          rw [hbK]
          exact findByte_first 59 K _ h59K
        have hdropb : b.drop (K.length + 1) = V.take (b.length - (K.length + 1)) := by
          conv_lhs => rw [hbK]
          exact append_cons_drop ..
        have hnlb : findByteFrom 10 b (K.length + 1) = none := by
          unfold findByteFrom
          rw [hdropb, findByte_eq_none 10 _ (fun hm => h10V (List.take_subset _ _ hm))]
          rfl
        have hrem : rem = (V.drop (b.length - (K.length + 1)) ++ [10]) ++ Z := by
          have e3 : ((K ++ [59]) ++ ((V ++ [10]) ++ Z)).drop b.length
              = ((V ++ [10]) ++ Z).drop (b.length - (K.length + 1)) := by
            rw [List.drop_append_eq_append_drop,
              List.drop_eq_nil_of_le (show (K ++ [59]).length ≤ b.length from by
                rw [hK59len]; omega),
              List.nil_append, hK59len]
          have z1 : b.length - (K.length + 1) - (V ++ [10]).length = 0 := by
            rw [hV10len]; omega
          have z2 : b.length - (K.length + 1) - V.length = 0 := by omega
          have e4 : ((V ++ [10]) ++ Z).drop (b.length - (K.length + 1))
              = (V.drop (b.length - (K.length + 1)) ++ [10]) ++ Z := by
            rw [List.drop_append_eq_append_drop, z1,
              List.drop_zero, List.drop_append_eq_append_drop, z2,
              List.drop_zero]
          conv_lhs => rw [hremeq]
          rw [hassoc2, e3, e4]
        have hbV : b ++ V.drop (b.length - (K.length + 1)) = K ++ 59 :: V := by
          have h0 : b ++ V.drop (b.length - (K.length + 1))
              = (K ++ 59 :: V.take (b.length - (K.length + 1)))
                ++ V.drop (b.length - (K.length + 1)) :=
            congrArg (fun x => x ++ V.drop (b.length - (K.length + 1))) hbK
          rw [h0]
          simp [List.take_append_drop]
        have hvparse : parse_decimal
            ((b ++ V.drop (b.length - (K.length + 1))).drop (K.length + 1)) = .ok v := by
          rw [hbV, append_cons_drop]
          exact hparse
        have h10V2 : 10 ∉ V.drop (b.length - (K.length + 1)) :=
          fun hm => h10V (List.drop_subset _ _ hm)
        have hlen2 : (V.drop (b.length - (K.length + 1))).length + 1 ≤ C := by
          simp only [List.length_drop]
          omega
        refine ⟨Z.take (C - ((V.drop (b.length - (K.length + 1))).length + 1)),
          Z.drop (C - ((V.drop (b.length - (K.length + 1))).length + 1)), ?_,
          List.take_append_drop _ _⟩
        unfold produceStep
        simp only [hfb]
        unfold stepBuf
        simp only [if_neg hbe, hsepb, hnlb]
        have hcons : consume b.length ⟨b, rem⟩ = ⟨[], rem⟩ := by
          simp [consume]
        rw [hcons, hrem, stepNoNl_page C t b K.length
          (V.drop (b.length - (K.length + 1))) Z v h10V2 hlen2 hvparse]
        have hname : (b ++ V.drop (b.length - (K.length + 1))).take K.length = K := by
          rw [hbV]
          exact append_cons_take ..
        rw [hname]
      · -- the buffer holds the whole row (and possibly more)
        have hbK : b = K ++ 59 :: (V ++ 10 :: Z.take (b.length - (K.length + V.length + 2))) := by
          conv_lhs => rw [hbpre]
          rw [List.take_append_eq_append_take,
            List.take_of_length_le (by rw [hL]; omega), hL]
          simp
        have hremZ : rem = Z.drop (b.length - (K.length + V.length + 2)) := by
          conv_lhs => rw [hremeq]
          rw [List.drop_append_eq_append_drop,
            List.drop_eq_nil_of_le (by rw [hL]; omega), hL, List.nil_append]
        have hstep : produceStep C t ⟨b, rem⟩
            = .next (insert_or_update t K v)
                ⟨b.drop (K.length + V.length + 2), rem⟩ := by
          unfold produceStep
          simp only [hfb]
          conv_lhs => rw [hbK]
          rw [stepBuf_wholerow C t K V _ _ _ h59K h10V hparse]
          simp only [consume]
          congr 2
          conv_rhs => rw [hbK]
        refine ⟨b.drop (K.length + V.length + 2), rem, hstep, ?_⟩
        have hd : b.drop (K.length + V.length + 2)
            = Z.take (b.length - (K.length + V.length + 2)) := by
          conv_lhs => rw [hbK]
          rw [show K ++ 59 :: (V ++ 10 :: Z.take (b.length - (K.length + V.length + 2)))
              = (K ++ 59 :: (V ++ [10])) ++ Z.take (b.length - (K.length + V.length + 2))
              by simp,
            show K.length + V.length + 2 = (K ++ 59 :: (V ++ [10])).length from hL.symm]
          exact drop_len_append ..
        rw [hd, hremZ, List.take_append_drop]

/-- The whole loop on a well-formed stream of rows, each no longer than one
page: every row is folded into the table exactly once, in file order. -/
theorem produceLoop_rows (C : Nat) (rows : List Row)
    (hrows : ∀ r ∈ rows, WFRow r ∧ r.bytes.length ≤ C) :
    ∀ (t : Table) (b rem : List Nat), b ++ rem = rowsBytes rows →
      produceLoop C t ⟨b, rem⟩ = .ok (produceList t rows) := by
  induction rows with
  | nil =>
    intro t b rem hsplit
    have hnil : b = [] ∧ rem = [] := by
      apply List.append_eq_nil.mp
      rw [hsplit]
      rfl
    obtain ⟨hb, hrem⟩ := hnil
    subst hb
    subst hrem
    have hdone : produceStep C t ⟨[], []⟩ = .done := by
      unfold produceStep stepBuf
      simp [fillBuf]
    rw [produceLoop_done hdone]
    rfl
  | cons r rows ih =>
    intro t b rem hsplit
    obtain ⟨⟨hk, hvne, hv⟩, hlen⟩ := hrows r (List.mem_cons_self r rows)
    have hparse : parse_decimal r.val = .ok r.value := parse_val_ok r hvne hv
    have h59K : 59 ∉ r.key := fun hm => ((hk 59 hm).1) rfl
    have h10K : 10 ∉ r.key := fun hm => ((hk 10 hm).2) rfl
    have h59V : 59 ∉ r.val := by
      intro hm
      rcases hv 59 hm with h | h | h <;> simp [isDigit] at h
    have h10V : 10 ∉ r.val := by
      intro hm
      rcases hv 10 hm with h | h | h <;> simp [isDigit] at h
    have hlen2 : r.key.length + r.val.length + 2 ≤ C := by
      have : r.bytes.length = r.key.length + r.val.length + 2 := by
        simp only [Row.bytes, List.length_append, List.length_cons, List.length_nil]
        omega
      omega
    have hsplit2 : b ++ rem = (r.key ++ 59 :: (r.val ++ [10])) ++ rowsBytes rows := by
      rw [hsplit, rowsBytes_cons]
      rfl
    obtain ⟨b2, rem2, hstep, hZ⟩ := produceStep_row C r.key r.val (rowsBytes rows) b rem t
      r.value h59K h10K h59V h10V hparse hlen2 hsplit2
    rw [produceLoop_next hstep,
      ih (fun x hx => hrows x (List.mem_cons_of_mem r hx)) _ b2 rem2 hZ]
    rfl

/-- `produce_table` on the byte encoding of a list of rows, each well-formed
and no longer than one page, returns exactly the in-order fold of the rows
(shared by the claims about the tokenizer and the partition refinement). -/
theorem produce_table_rows (C : Nat) (rows : List Row)
    (hrows : ∀ r ∈ rows, WFRow r ∧ r.bytes.length ≤ C) :
    produce_table C (rowsBytes rows) = .ok (produceList [] rows) :=
  produceLoop_rows C rows hrows [] [] (rowsBytes rows) rfl

/-- Claim C3: on every well-formed input whose rows each fit in one
read-buffer page, `produce_table` processes every row exactly once, in file
order — the result is the in-order fold of the rows by `insert_or_update`,
no matter where page-refill boundaries fall inside the rows. -/
theorem produce_table_rows_in_order (C : Nat) (rows : List Row)
    (hrows : ∀ r ∈ rows, WFRow r ∧ r.bytes.length ≤ C) :
    produce_table C (rowsBytes rows) = .ok (produceList [] rows) :=
  produce_table_rows C rows hrows

/-- Witness for C3: the single-row input "X;12.3\n" with page size 7 (so a
refill boundary can only fall at the row edge) yields the aggregate
{min = 12.3, max = 12.3, sum = 12.3, count = 1} under key "X". -/
theorem produce_table_rows_in_order_witness :
    (∀ r ∈ [Row.mk [88] [49, 50, 46, 51]], WFRow r ∧ r.bytes.length ≤ 7) ∧
    produce_table 7 [88, 59, 49, 50, 46, 51, 10]
      = .ok [([88], { min := 123/10, max := 123/10, sum := 123/10, count := 1 })] := by
  have hwf : ∀ r ∈ [Row.mk [88] [49, 50, 46, 51]], WFRow r ∧ r.bytes.length ≤ 7 := by
    intro r hr
    simp only [List.mem_singleton] at hr
    subst hr
    exact ⟨⟨by decide, by decide, by decide⟩, by decide⟩
  refine ⟨hwf, ?_⟩
  have h := produce_table_rows_in_order 7 [Row.mk [88] [49, 50, 46, 51]] hwf
  have hb : rowsBytes [Row.mk [88] [49, 50, 46, 51]] = [88, 59, 49, 50, 46, 51, 10] := by
    decide
  rw [hb] at h
  have hv : parse_decimal [49, 50, 46, 51] = .ok (123/10 : ℚ) := by
    norm_num [parse_decimal, parse_decimal_loop, scale, Except.map]
  have hvv : Row.value (Row.mk [88] [49, 50, 46, 51]) = 123/10 := by
    unfold Row.value
    rw [hv]
  rw [h]
  simp [produceList, insert_or_update, tlookup, hvv, Sample.from]

/-! ## The reducer's merge fold (src/src/main.rs lines 100-113) -/

/-- `l.entry(k).or_default(); e.merge(&r)`: merge one incoming sample into
the running table, inserting the default first when the key is absent. -/
def upsertMerge (acc : Table) (k : List Nat) (x : Sample) : Table :=
  match tlookup acc k with
  | some _ => updateEntry acc k (fun s => s.merge x)
  | none => acc ++ [(k, Sample.default.merge x)]

/-- The reducer's fold body: merge every entry of the incoming table `r`
into the running table `l`. -/
def mergeInto (l r : Table) : Table :=
  r.foldl (fun acc p => upsertMerge acc p.1 p.2) l

/-- `rx.iter().reduce(...)`: fold all arriving tables into the first one
(the source unwraps, so the list is nonempty in any run that reports). -/
def reduceTables : List Table → Table
  | [] => []
  | t :: ts => ts.foldl mergeInto t

/-- Key-wise combination realised by continuing a fold on a nonempty table. -/
def optAdd : Option Sample → Option Sample → Option Sample
  | x, none => x
  | none, some u => some u
  | some s, some u => some (s.merge u)

/-- A sample whose min and max are within the finite f32 range (anything
either fold produces from in-range values). -/
def SB (s : Sample) : Prop := s.min ≤ f32MAX ∧ -f32MAX ≤ s.max

theorem Sample.add_eq_merge_from (s : Sample) (v : ℚ) :
    s.add v = s.merge (Sample.from v) := rfl

theorem Sample.merge_assoc (a b c : Sample) :
    (a.merge b).merge c = a.merge (b.merge c) := by
  simp only [Sample.merge, min_assoc, max_assoc, add_assoc]

theorem tlookup_updateEntry (t : Table) (k : List Nat) (f : Sample → Sample)
    (k' : List Nat) :
    tlookup (updateEntry t k f) k'
      = if k' = k then (tlookup t k).map f else tlookup t k' := by
  induction t with
  | nil => by_cases h : k' = k <;> simp [updateEntry, tlookup, h]
  | cons p rest ih =>
    obtain ⟨k2, s⟩ := p
    by_cases h1 : k2 = k
    · subst h1
      by_cases h2 : k' = k2
      · subst h2
        simp [updateEntry, tlookup]
      · have h2s : ¬ k2 = k' := fun hh => h2 hh.symm
        simp [updateEntry, tlookup, h2, h2s]
    · by_cases h2 : k2 = k'
      · subst h2
        have h1s : ¬ k2 = k := h1
        simp [updateEntry, tlookup, h1, h1s]
      · simp [updateEntry, tlookup, h1, h2, ih]

theorem tlookup_append (t1 t2 : Table) (k : List Nat) :
    tlookup (t1 ++ t2) k
      = match tlookup t1 k with
        | some s => some s
        | none => tlookup t2 k := by
  induction t1 with
  | nil => simp [tlookup]
  | cons p rest ih =>
    obtain ⟨k2, s⟩ := p
    by_cases h : k2 = k <;> simp_all [tlookup]

theorem tlookup_insert_or_update (t : Table) (k : List Nat) (v : ℚ) (k' : List Nat) :
    tlookup (insert_or_update t k v) k'
      = if k' = k then
          some (match tlookup t k with
            | some s => s.add v
            | none => Sample.from v)
        else tlookup t k' := by
  unfold insert_or_update
  rcases h : tlookup t k with _ | s
  · show tlookup (t ++ [(k, Sample.from v)]) k'
      = if k' = k then some (Sample.from v) else tlookup t k'
    rw [tlookup_append]
    by_cases h2 : k' = k
    · subst h2
      rw [h]
      simp [tlookup]
    · have h2s : ¬ k = k' := fun hh => h2 hh.symm
      rcases h3 : tlookup t k' with _ | s2 <;> simp [h3, tlookup, h2, h2s]
  · show tlookup (updateEntry t k (fun s => s.add v)) k'
      = if k' = k then some (s.add v) else tlookup t k'
    rw [tlookup_updateEntry]
    by_cases h2 : k' = k
    · subst h2
      rw [h, if_pos rfl, if_pos rfl]
      rfl
    · rw [if_neg h2, if_neg h2]

theorem tlookup_upsertMerge (t : Table) (k : List Nat) (x : Sample) (k' : List Nat) :
    tlookup (upsertMerge t k x) k'
      = if k' = k then
          some (match tlookup t k with
            | some s => s.merge x
            | none => Sample.default.merge x)
        else tlookup t k' := by
  unfold upsertMerge
  rcases h : tlookup t k with _ | s
  · show tlookup (t ++ [(k, Sample.default.merge x)]) k'
      = if k' = k then some (Sample.default.merge x) else tlookup t k'
    rw [tlookup_append]
    by_cases h2 : k' = k
    · subst h2
      rw [h]
      simp [tlookup]
    · have h2s : ¬ k = k' := fun hh => h2 hh.symm
      rcases h3 : tlookup t k' with _ | s2 <;> simp [h3, tlookup, h2, h2s]
  · show tlookup (updateEntry t k (fun s => s.merge x)) k'
      = if k' = k then some (s.merge x) else tlookup t k'
    rw [tlookup_updateEntry]
    by_cases h2 : k' = k
    · subst h2
      rw [h, if_pos rfl, if_pos rfl]
      rfl
    · rw [if_neg h2, if_neg h2]

/-- The keys of a table, in storage order. -/
def tableKeys (t : Table) : List (List Nat) := t.map Prod.fst

/-- The aggregate the in-order fold accumulates for one key. -/
def keyAgg (rows : List Row) (k : List Nat) : Option Sample :=
  tlookup (produceList [] rows) k

/-- Key-wise effect of the reducer's upsert-merge. -/
def optUpsert : Option Sample → Option Sample → Option Sample
  | x, none => x
  | some s, some u => some (s.merge u)
  | none, some u => some (Sample.default.merge u)

/-- Key-wise combination of the partitions, in partition order. -/
def combAgg : List (List Row) → List Nat → Option Sample
  | [], _ => none
  | p :: ps, k => optAdd (keyAgg p k) (combAgg ps k)

theorem optAdd_assoc (a b c : Option Sample) :
    optAdd (optAdd a b) c = optAdd a (optAdd b c) := by
  rcases a with _ | x <;> rcases b with _ | y <;> rcases c with _ | z <;>
    simp [optAdd, Sample.merge_assoc]

theorem tlookup_eq_none_iff (t : Table) (k : List Nat) :
    tlookup t k = none ↔ k ∉ tableKeys t := by
  induction t with
  | nil => simp [tlookup, tableKeys]
  | cons p rest ih =>
    obtain ⟨k2, s⟩ := p
    by_cases h : k2 = k
    · subst h
      simp [tlookup, tableKeys]
    · have hs : ¬ k = k2 := fun hh => h hh.symm
      simp [tlookup, tableKeys, h, hs, ih]

theorem tableKeys_updateEntry (t : Table) (k : List Nat) (f : Sample → Sample) :
    tableKeys (updateEntry t k f) = tableKeys t := by
  induction t with
  | nil => rfl
  | cons p rest ih =>
    obtain ⟨k2, s⟩ := p
    by_cases h : k2 = k <;> simp [updateEntry, tableKeys, h] <;>
      simpa [tableKeys] using ih

theorem produceList_keys_nodup (rows : List Row) :
    ∀ t : Table, (tableKeys t).Nodup → (tableKeys (produceList t rows)).Nodup := by
  induction rows with
  | nil => exact fun t h => h
  | cons r rest ih =>
    intro t h
    have hstep : produceList t (r :: rest)
        = produceList (insert_or_update t r.key r.value) rest := rfl
    rw [hstep]
    apply ih
    unfold insert_or_update
    rcases hg : tlookup t r.key with _ | s
    · have hnk : r.key ∉ tableKeys t := (tlookup_eq_none_iff t r.key).mp hg
      show (tableKeys (t ++ [(r.key, Sample.from r.value)])).Nodup
      rw [show tableKeys (t ++ [(r.key, Sample.from r.value)])
          = tableKeys t ++ [r.key] from by simp [tableKeys]]
      refine List.Nodup.append h (List.nodup_singleton _) ?_
      intro a ha hb
      simp only [List.mem_singleton] at hb
      subst hb
      exact hnk ha
    · show (tableKeys (updateEntry t r.key (fun s => s.add r.value))).Nodup
      rw [tableKeys_updateEntry]
      exact h

theorem tlookup_produceList (rows : List Row) :
    ∀ (t : Table) (k : List Nat),
      tlookup (produceList t rows) k = optAdd (tlookup t k) (keyAgg rows k) := by
  induction rows with
  | nil =>
    intro t k
    rcases h : tlookup t k with _ | s <;> simp [produceList, keyAgg, tlookup, optAdd, h]
  | cons r rest ih =>
    intro t k
    have hstep : produceList t (r :: rest)
        = produceList (insert_or_update t r.key r.value) rest := rfl
    have hbase : keyAgg (r :: rest) k
        = optAdd (tlookup (insert_or_update [] r.key r.value) k) (keyAgg rest k) := by
      unfold keyAgg
      rw [show produceList [] (r :: rest)
          = produceList (insert_or_update [] r.key r.value) rest from rfl, ih]
      rfl
    rw [hstep, ih, hbase, tlookup_insert_or_update, tlookup_insert_or_update]
    by_cases hk : k = r.key
    · rw [if_pos hk, if_pos hk]
      rw [show tlookup ([] : Table) r.key = none from rfl]
      rcases h1 : tlookup t k with _ | sT <;>
        rcases h2 : keyAgg rest k with _ | sA <;>
          simp [optAdd, ← hk, h1, h2, Sample.add_eq_merge_from, Sample.merge_assoc]
    · rw [if_neg hk, if_neg hk]
      rcases h2 : keyAgg rest k with _ | sA <;>
        rcases h1 : tlookup t k with _ | sT <;>
          simp [optAdd, tlookup]

theorem tlookup_mergeInto (r : Table) :
    ∀ (l : Table) (k : List Nat), (tableKeys r).Nodup →
      tlookup (mergeInto l r) k = optUpsert (tlookup l k) (tlookup r k) := by
  induction r with
  | nil =>
    intro l k _
    rcases h : tlookup l k with _ | s <;> simp [mergeInto, optUpsert, tlookup, h]
  | cons p rest ih =>
    intro l k hnd
    obtain ⟨k2, s2⟩ := p
    rw [show tableKeys ((k2, s2) :: rest) = k2 :: tableKeys rest from rfl,
      List.nodup_cons] at hnd
    obtain ⟨hk2, hnd2⟩ := hnd
    have hstep : mergeInto l ((k2, s2) :: rest) = mergeInto (upsertMerge l k2 s2) rest := rfl
    rw [hstep, ih _ k hnd2, tlookup_upsertMerge]
    by_cases hk : k = k2
    · subst hk
      rw [if_pos rfl]
      have hrest : tlookup rest k = none := (tlookup_eq_none_iff rest k).mpr hk2
      rw [hrest, show tlookup ((k, s2) :: rest) k = some s2 from by simp [tlookup]]
      rcases h : tlookup l k with _ | s <;> simp [optUpsert]
    · have hks : ¬ k2 = k := fun hh => hk hh.symm
      rw [if_neg hk,
        show tlookup ((k2, s2) :: rest) k = tlookup rest k from by simp [tlookup, hks]]

theorem SB_from (v : ℚ) (h1 : -f32MAX ≤ v) (h2 : v ≤ f32MAX) : SB (Sample.from v) :=
  ⟨h2, h1⟩

theorem SB_merge {a b : Sample} (ha : SB a) (hb : SB b) : SB (a.merge b) := by
  constructor
  · exact le_trans (min_le_left _ _) ha.1
  · exact le_trans hb.2 (le_max_right _ _)

theorem SB_default_merge {u : Sample} (hu : SB u) : Sample.default.merge u = u := by
  obtain ⟨u1, u2, u3, u4⟩ := u
  simp only [Sample.merge, Sample.default, Sample.mk.injEq]
  exact ⟨min_eq_right hu.1, max_eq_right hu.2, zero_add u3, Nat.zero_add u4⟩

/-- All samples a lookup can produce are in range. -/
def SBopt (X : Option Sample) : Prop := ∀ u, X = some u → SB u

theorem SBopt_optAdd {A B : Option Sample} (hA : SBopt A) (hB : SBopt B) :
    SBopt (optAdd A B) := by
  rcases A with _ | x <;> rcases B with _ | y
  · intro u hu
    simp [optAdd] at hu
  · intro u hu
    simp [optAdd] at hu
    subst hu
    exact hB y rfl
  · intro u hu
    simp [optAdd] at hu
    subst hu
    exact hA x rfl
  · intro u hu
    simp [optAdd] at hu
    subst hu
    exact SB_merge (hA x rfl) (hB y rfl)

theorem SBopt_keyAgg (rows : List Row)
    (hb : ∀ r ∈ rows, -f32MAX ≤ r.value ∧ r.value ≤ f32MAX) (k : List Nat) :
    SBopt (keyAgg rows k) := by
  induction rows with
  | nil =>
    intro u hu
    simp [keyAgg, produceList, tlookup] at hu
  | cons r rest ih =>
    have hbase : keyAgg (r :: rest) k
        = optAdd (tlookup (insert_or_update [] r.key r.value) k) (keyAgg rest k) := by
      unfold keyAgg
      rw [show produceList [] (r :: rest)
          = produceList (insert_or_update [] r.key r.value) rest from rfl,
        tlookup_produceList]
      rfl
    rw [hbase]
    apply SBopt_optAdd
    · intro u hu
      rw [tlookup_insert_or_update] at hu
      by_cases hk : k = r.key
      · rw [if_pos hk, show tlookup [] r.key = none from rfl] at hu
        obtain ⟨h1, h2⟩ := hb r (List.mem_cons_self r rest)
        cases hu
        exact SB_from r.value h1 h2
      · rw [if_neg hk] at hu
        simp [tlookup] at hu
    · exact ih (fun x hx => hb x (List.mem_cons_of_mem r hx))

theorem optUpsert_eq_optAdd {X Y : Option Sample} (hY : SBopt Y) :
    optUpsert X Y = optAdd X Y := by
  rcases X with _ | x <;> rcases Y with _ | y <;> simp [optUpsert, optAdd]
  exact SB_default_merge (hY y rfl)

theorem foldl_mergeInto_lookup (ts : List Table) :
    ∀ (l : Table) (k : List Nat), (∀ t ∈ ts, (tableKeys t).Nodup) →
      tlookup (ts.foldl mergeInto l) k
        = (ts.map (fun t => tlookup t k)).foldl optUpsert (tlookup l k) := by
  induction ts with
  | nil => intro l k _; rfl
  | cons t ts ih =>
    intro l k hnd
    rw [show (t :: ts).foldl mergeInto l = ts.foldl mergeInto (mergeInto l t) from rfl,
      ih _ k (fun x hx => hnd x (List.mem_cons_of_mem t hx)),
      tlookup_mergeInto t l k (hnd t (List.mem_cons_self t ts))]
    rfl

theorem foldl_optUpsert_combAgg (ps : List (List Row))
    (hb : ∀ p ∈ ps, ∀ r ∈ p, -f32MAX ≤ r.value ∧ r.value ≤ f32MAX) :
    ∀ (a : Option Sample) (k : List Nat),
      (ps.map (fun p => keyAgg p k)).foldl optUpsert a = optAdd a (combAgg ps k) := by
  induction ps with
  | nil =>
    intro a k
    rcases a with _ | x <;> simp [combAgg, optAdd]
  | cons q qs ih =>
    intro a k
    have hq : SBopt (keyAgg q k) :=
      SBopt_keyAgg q (hb q (List.mem_cons_self q qs)) k
    rw [show ((q :: qs).map (fun p => keyAgg p k)).foldl optUpsert a
        = (qs.map (fun p => keyAgg p k)).foldl optUpsert (optUpsert a (keyAgg q k))
        from rfl,
      ih (fun x hx => hb x (List.mem_cons_of_mem q hx)),
      optUpsert_eq_optAdd hq, optAdd_assoc]
    rfl

theorem rowsBytes_append (a b : List Row) :
    rowsBytes (a ++ b) = rowsBytes a ++ rowsBytes b := by
  simp [rowsBytes]

theorem rowsBytes_flatten (parts : List (List Row)) :
    rowsBytes parts.flatten = (parts.map rowsBytes).flatten := by
  induction parts with
  | nil => rfl
  | cons p ps ih =>
    rw [show (p :: ps).flatten = p ++ ps.flatten from rfl, rowsBytes_append, ih]
    rfl

theorem keyAgg_flatten (parts : List (List Row)) (k : List Nat) :
    keyAgg parts.flatten k = combAgg parts k := by
  induction parts with
  | nil => rfl
  | cons p ps ih =>
    rw [show (p :: ps).flatten = p ++ ps.flatten from rfl]
    unfold keyAgg
    rw [show produceList [] (p ++ ps.flatten) = produceList (produceList [] p) ps.flatten
        from (List.foldl_append ..),
      tlookup_produceList]
    rw [show combAgg (p :: ps) k = optAdd (keyAgg p k) (combAgg ps k) from rfl, ← ih]
    rfl

/-- Claim C1 (floats idealized as exact rationals): split a well-formed
input — rows fitting one page, values in the finite f32 range — into any
newline-aligned partitions.  Running `produce_table` on each partition
succeeds, running it once over the concatenated file succeeds, and folding
the per-partition tables key-by-key with merge (`reduceTables`, the
reducer's fold) agrees with the single pass on every key. -/
theorem partitioned_merge_matches_single_pass (C : Nat) (parts : List (List Row))
    (hne : parts ≠ [])
    (hrows : ∀ p ∈ parts, ∀ r ∈ p, WFRow r ∧ r.bytes.length ≤ C)
    (hbnd : ∀ p ∈ parts, ∀ r ∈ p, -f32MAX ≤ r.value ∧ r.value ≤ f32MAX) :
    (∀ p ∈ parts, produce_table C (rowsBytes p) = .ok (produceList [] p)) ∧
    produce_table C ((parts.map rowsBytes).flatten) = .ok (produceList [] parts.flatten) ∧
    (∀ k, tlookup (reduceTables (parts.map (fun p => produceList [] p))) k
        = tlookup (produceList [] parts.flatten) k) := by
  refine ⟨fun p hp => produce_table_rows C p (hrows p hp), ?_, ?_⟩
  · rw [← rowsBytes_flatten]
    apply produce_table_rows
    intro r hr
    obtain ⟨p, hp, hrp⟩ := List.mem_flatten.mp hr
    exact hrows p hp r hrp
  · intro k
    rcases parts with _ | ⟨p, ps⟩
    · exact absurd rfl hne
    · have hnodup : ∀ t ∈ ps.map (fun p => produceList [] p), (tableKeys t).Nodup := by
        intro t ht
        simp only [List.mem_map] at ht
        obtain ⟨q, hq, rfl⟩ := ht
        exact produceList_keys_nodup q [] (by simp [tableKeys])
      rw [show reduceTables ((p :: ps).map (fun p => produceList [] p))
          = (ps.map (fun p => produceList [] p)).foldl mergeInto (produceList [] p)
          from rfl,
        foldl_mergeInto_lookup (ps.map (fun p => produceList [] p))
          (produceList [] p) k hnodup,
        show (ps.map (fun p => produceList [] p)).map (fun t => tlookup t k)
          = ps.map (fun p => keyAgg p k) from by rw [List.map_map]; rfl,
        foldl_optUpsert_combAgg ps (fun q hq => hbnd q (List.mem_cons_of_mem p hq)) _ k,
        show tlookup (produceList [] (p :: ps).flatten) k = keyAgg (p :: ps).flatten k
          from rfl,
        keyAgg_flatten]
      rfl

/-- Witness for C1: the file "a;1\na;2\n" split into two one-row partitions
with page size 5 merges to the same table as the single pass. -/
theorem partitioned_merge_matches_single_pass_witness :
    (([[Row.mk [97] [49]], [Row.mk [97] [50]]] : List (List Row)) ≠ []) ∧
    (∀ k, tlookup (reduceTables ([[Row.mk [97] [49]], [Row.mk [97] [50]]].map
        (fun p => produceList [] p))) k
      = tlookup (produceList [] ([[Row.mk [97] [49]], [Row.mk [97] [50]]]
          : List (List Row)).flatten) k) := by
  have h1 : ∀ p ∈ ([[Row.mk [97] [49]], [Row.mk [97] [50]]] : List (List Row)),
      ∀ r ∈ p, WFRow r ∧ r.bytes.length ≤ 5 := by decide
  have hp1 : parse_decimal [49] = .ok (1 : ℚ) := by
    norm_num [parse_decimal, parse_decimal_loop, scale, Except.map]
  have hp2 : parse_decimal [50] = .ok (2 : ℚ) := by
    norm_num [parse_decimal, parse_decimal_loop, scale, Except.map]
  have hv1 : Row.value (Row.mk [97] [49]) = 1 := by
    unfold Row.value
    rw [hp1]
  have hv2 : Row.value (Row.mk [97] [50]) = 2 := by
    unfold Row.value
    rw [hp2]
  have h2 : ∀ p ∈ ([[Row.mk [97] [49]], [Row.mk [97] [50]]] : List (List Row)),
      ∀ r ∈ p, -f32MAX ≤ r.value ∧ r.value ≤ f32MAX := by
    intro p hp r hr
    simp only [List.mem_cons, List.not_mem_nil, or_false] at hp
    rcases hp with rfl | rfl <;>
      simp only [List.mem_singleton, List.not_mem_nil, List.mem_cons, or_false] at hr <;>
        subst hr
    · rw [hv1]
      constructor <;> norm_num [f32MAX]
    · rw [hv2]
      constructor <;> norm_num [f32MAX]
  exact ⟨by decide,
    (partitioned_merge_matches_single_pass 5 [[Row.mk [97] [49]], [Row.mk [97] [50]]]
      (by decide) h1 h2).2.2⟩

/-! ## The partitioner (src/src/main.rs lines 62-98) -/

/-- The seek-forward alignment loop of `main`: from `pos`, read one byte at
a time until a newline is read, returning the stream position just past it.
`read` at end of file returns `Ok(0)` and leaves the byte buffer unchanged,
so when no newline exists at or after `pos` the while loop comparing the
byte against the newline spins forever — modelled as `none`. -/
def seekAlign (file : List Nat) (pos : Nat) : Option Nat :=
  match findByte 10 (file.drop pos) with
  | some j => some (pos + j + 1)
  | none => none

/-- `(1..num_chunks).map(|i| i * (file_len/num_chunks))` aligned forward;
`none` when any alignment loop diverges. -/
def computeSplits (file : List Nat) (numChunks : Nat) : Option (List Nat) :=
  (List.range' 1 (numChunks - 1)).mapM
    (fun i => seekAlign file (i * (file.length / numChunks)))

/-- The partition set-up of `main`: the windows(2) ranges, with the range
`[0, splits[0])` inserted in front and the unbounded tail range pushed at
the end.  `splits[0]` and `splits.last().unwrap()` panic when `splits` is
empty; an undetermined alignment loop (outer `none`) never reaches this
point. Ranges are `(start, Option length-limit)`; the last `Take` has limit
`u64::MAX`, modelled as `none`. -/
def partitionPhase (file : List Nat) (numChunks : Nat) :
    Option (Except String (List (Nat × Option Nat))) :=
  match computeSplits file numChunks with
  | none => none
  | some splits =>
    match splits.head?, splits.getLast? with
    | some s0, some sl =>
      some (.ok ((0, some s0) ::
        ((splits.zip (splits.drop 1)).map (fun p => (p.1, some (p.2 - p.1)))
          ++ [(sl, none)])))
    | _, _ => some (.error "index out of bounds")

/-- Claim C9: with hardware parallelism 1 the splits vector is empty and the
unconditional `splits[0]` indexing panics before any row is read, for every
input file. -/
theorem single_chunk_always_panics (file : List Nat) :
    partitionPhase file 1 = some (.error "index out of bounds") := rfl

/-- Claim C8 (code bug): when no newline exists at or past a naive split
point — in particular on the empty input file — the alignment loop never
terminates (`read` keeps returning 0 bytes at EOF), so partitioning hangs
instead of collapsing the split to the file length; the empty input file
therefore never produces the report at all. -/
theorem empty_input_partitioning_hangs :
    seekAlign [] 0 = none ∧ partitionPhase [] 2 = none ∧
    (∀ file pos, 10 ∉ file.drop pos → seekAlign file pos = none) := by
  refine ⟨rfl, rfl, ?_⟩
  intro file pos h
  unfold seekAlign
  rw [findByte_eq_none 10 _ h]

/-- Witness for C8: the no-newline hypothesis holds for the input
"AB" (no newline anywhere) at split position 0, where the loop spins. -/
theorem empty_input_partitioning_hangs_witness :
    (10 ∉ ([65, 66] : List Nat).drop 0) ∧ seekAlign [65, 66] 0 = none := by
  refine ⟨by decide, ?_⟩
  exact empty_input_partitioning_hangs.2.2 [65, 66] 0 (by decide)

/-! ## Rows longer than two pages (claim C6) -/

/-- Stepwise evaluation of `produce_table` with page size 3 on the input
"abcdef;1\n" — a single row of 9 bytes, so a third page refill is needed to
complete it.  The separator-less first and second pages are stashed and then
discarded by the fall-through branch, so the run silently returns a table
whose only key is the final-page fragment "def" of the row's key. -/
theorem produce_table_oversized_eval :
    produce_table 3 [97, 98, 99, 100, 101, 102, 59, 49, 10]
      = .ok [([100, 101, 102], { min := 1, max := 1, sum := 1, count := 1 })] := by
  have s1 : produceStep 3 [] ⟨[], [97, 98, 99, 100, 101, 102, 59, 49, 10]⟩
      = .next [] ⟨[100, 101, 102], [59, 49, 10]⟩ := rfl
  have s2 : produceStep 3 [] ⟨[100, 101, 102], [59, 49, 10]⟩
      = .next [([100, 101, 102], { min := 1, max := 1, sum := 1, count := 1 })]
          ⟨[], []⟩ := rfl
  have s3 : produceStep 3
      [([100, 101, 102], ({ min := 1, max := 1, sum := 1, count := 1 } : Sample))]
      ⟨[], []⟩ = .done := rfl
  unfold produce_table
  rw [produceLoop_next s1, produceLoop_next s2, produceLoop_done s3]

/-- Counterexample for C6 as stated: with page size 3, the 9-byte row
"abcdef;1\n" needs a third page refill, yet `produce_table` returns a table
(`isSome` on the ok-projection) — there is no fatal row-too-large error. -/
theorem oversized_row_not_fatal :
    (produce_table 3 [97, 98, 99, 100, 101, 102, 59, 49, 10]).toOption.isSome = true := by
  rw [produce_table_oversized_eval]
  rfl

/-- Claim C6 (amended): a row longer than two read-buffer pages is not
detected as malformed: when the separator and the newline of such a row only
appear after its key has spanned whole pages, the stash is discarded by the
fall-through branch and `produce_table` silently returns a table keyed by
the key's final fragment (here "def" instead of "abcdef"), with the true key
absent — rather than failing with any row-too-large error. -/
theorem oversized_row_mis_keyed :
    produce_table 3 [97, 98, 99, 100, 101, 102, 59, 49, 10]
      = .ok [([100, 101, 102], { min := 1, max := 1, sum := 1, count := 1 })] ∧
    tlookup [([100, 101, 102], ({ min := 1, max := 1, sum := 1, count := 1 } : Sample))]
      [97, 98, 99, 100, 101, 102] = none := by
  refine ⟨produce_table_oversized_eval, ?_⟩
  simp [tlookup]

/-! ## The reporters (src/src/lib.rs lines 192-212 and src/src/main.rs
lines 264-278) -/

/-- `String::from_utf8_lossy` restricted to ASCII keys (the spec's input is
ASCII-safe text; on ASCII bytes lossy UTF-8 decoding is the byte-by-byte
identity embedding). -/
def decodeAscii (k : List Nat) : String := String.mk (k.map Char.ofNat)

/-- Rust fixed formatting with one fractional digit applied to the exact
value: round to one decimal place, ties to even (signed zero is not
modelled: the exact rationals have no negative zero). -/
def round1 (q : ℚ) : Int :=
  if 10 * q - Rat.floor (10 * q) < 1/2 then Rat.floor (10 * q)
  else if 1/2 < 10 * q - Rat.floor (10 * q) then Rat.floor (10 * q) + 1
  else if Rat.floor (10 * q) % 2 = 0 then Rat.floor (10 * q)
  else Rat.floor (10 * q) + 1

/-- The decimal text of a value to one decimal place. -/
def fmt1 (q : ℚ) : String :=
  (if round1 q < 0 then "-" else "")
    ++ toString ((round1 q).natAbs / 10) ++ "." ++ toString ((round1 q).natAbs % 10)

/-- Sorted-map insertion, replacing the stored value on an equal key:
`BTreeMap` collect. -/
def btreeInsert : List (String × Sample) → String × Sample → List (String × Sample)
  | [], e => [e]
  | (k2, s2) :: rest, e =>
    if e.1 < k2 then e :: (k2, s2) :: rest
    else if e.1 = k2 then (e.1, e.2) :: rest
    else (k2, s2) :: btreeInsert rest e

/-- `table.iter().map(decode key).collect::<BTreeMap<String, &Sample>>()`. -/
def btreeOfTable (t : Table) : List (String × Sample) :=
  (t.map (fun p => (decodeAscii p.1, p.2))).foldl btreeInsert []

/-- One rendered entry `key=min/mean/max`, each value to one decimal. -/
def entryString (p : String × Sample) : String :=
  p.1 ++ "=" ++ fmt1 p.2.min ++ "/" ++ fmt1 p.2.mean ++ "/" ++ fmt1 p.2.max

/-- `report` of src/src/lib.rs: a single brace-wrapped line, entries joined
with ", " through the first-entry flag, closed by `writeln!`. -/
def lib_report (t : Table) : String :=
  "\x7b" ++ String.intercalate ", " ((btreeOfTable t).map entryString) ++ "\x7d\n"

/-- `report` of src/src/main.rs — the one `main` calls on the final merged
table: every entry, the last included, is followed by ", \n". -/
def main_report (t : Table) : String :=
  "\x7b" ++ String.join ((btreeOfTable t).map (fun p => entryString p ++ ", \n"))
    ++ "\x7d\n"

theorem btreeInsert_keys_mem (l : List (String × Sample)) (e : String × Sample) :
    ∀ x ∈ (btreeInsert l e).map Prod.fst, x = e.1 ∨ x ∈ l.map Prod.fst := by
  induction l with
  | nil =>
    intro x hx
    simp [btreeInsert] at hx
    exact Or.inl hx
  | cons p rest ih =>
    obtain ⟨k2, s2⟩ := p
    intro x hx
    by_cases h1 : e.1 < k2
    · simp [btreeInsert, h1] at hx ⊢
      tauto
    · by_cases h2 : e.1 = k2
      · simp [btreeInsert, h1, h2] at hx ⊢
        tauto
      · simp only [btreeInsert, if_neg h1, if_neg h2, List.map_cons,
          List.mem_cons] at hx
        rcases hx with rfl | hx
        · simp
        · rcases ih x hx with rfl | hx2
          · simp
          · simp [hx2]

theorem btreeInsert_sorted (l : List (String × Sample)) (e : String × Sample)
    (h : List.Sorted (fun a b => a < b) (l.map Prod.fst)) :
    List.Sorted (fun a b => a < b) ((btreeInsert l e).map Prod.fst) := by
  induction l with
  | nil => simp [btreeInsert]
  | cons p rest ih =>
    obtain ⟨k2, s2⟩ := p
    rw [List.map_cons, List.sorted_cons] at h
    obtain ⟨hk2, hrest⟩ := h
    by_cases h1 : e.1 < k2
    · simp only [btreeInsert, if_pos h1, List.map_cons, List.sorted_cons]
      refine ⟨?_, ?_⟩
      · intro b hb
        rcases List.mem_cons.mp hb with rfl | hb
        · exact h1
        · exact lt_trans h1 (hk2 b hb)
      · exact ⟨hk2, hrest⟩
    · by_cases h2 : e.1 = k2
      · simp only [btreeInsert, if_neg h1, if_pos h2, List.map_cons, List.sorted_cons]
        refine ⟨?_, hrest⟩
        intro b hb
        rw [h2]
        exact hk2 b hb
      · have h3 : k2 < e.1 :=
          lt_of_le_of_ne (le_of_not_lt h1) (fun hh => h2 hh.symm)
        simp only [btreeInsert, if_neg h1, if_neg h2, List.map_cons, List.sorted_cons]
        refine ⟨?_, ih hrest⟩
        intro b hb
        rcases btreeInsert_keys_mem rest e b hb with rfl | hb2
        · exact h3
        · exact hk2 b hb2

theorem btreeInsert_keys_perm (l : List (String × Sample)) (e : String × Sample)
    (hni : e.1 ∉ l.map Prod.fst) :
    ((btreeInsert l e).map Prod.fst).Perm (e.1 :: l.map Prod.fst) := by
  induction l with
  | nil => simp [btreeInsert]
  | cons p rest ih =>
    obtain ⟨k2, s2⟩ := p
    have hne : ¬ e.1 = k2 := fun hh => hni (by simp [hh])
    have hni2 : e.1 ∉ rest.map Prod.fst := fun hh => hni (by simp [hh])
    by_cases h1 : e.1 < k2
    · simp [btreeInsert, h1]
    · simp only [btreeInsert, if_neg h1, if_neg hne, List.map_cons]
      exact List.Perm.trans (List.Perm.cons k2 (ih hni2)) (List.Perm.swap e.1 k2 _)

theorem btree_fold_spec (ps : List (String × Sample)) :
    ∀ acc : List (String × Sample),
      (ps.map Prod.fst).Nodup →
      (∀ x ∈ ps.map Prod.fst, x ∉ acc.map Prod.fst) →
      List.Sorted (fun a b => a < b) (acc.map Prod.fst) →
      List.Sorted (fun a b => a < b) ((ps.foldl btreeInsert acc).map Prod.fst) ∧
      ((ps.foldl btreeInsert acc).map Prod.fst).Perm
        (acc.map Prod.fst ++ ps.map Prod.fst) := by
  induction ps with
  | nil =>
    intro acc _ _ hs
    exact ⟨hs, by simp⟩
  | cons e rest ih =>
    intro acc hnd hdis hs
    rw [List.map_cons, List.nodup_cons] at hnd
    obtain ⟨hne, hnd2⟩ := hnd
    have hniacc : e.1 ∉ acc.map Prod.fst := hdis e.1 (by simp)
    have hperm := btreeInsert_keys_perm acc e hniacc
    have hsort := btreeInsert_sorted acc e hs
    have hdis2 : ∀ x ∈ rest.map Prod.fst, x ∉ (btreeInsert acc e).map Prod.fst := by
      intro x hx hmem
      rw [hperm.mem_iff] at hmem
      rcases List.mem_cons.mp hmem with rfl | hmem2
      · exact hne hx
      · exact hdis x (by simp [hx]) hmem2
    obtain ⟨hs3, hp3⟩ := ih (btreeInsert acc e) hnd2 hdis2 hsort
    refine ⟨hs3, ?_⟩
    rw [List.map_cons]
    exact hp3.trans ((hperm.append_right _).trans List.perm_middle.symm)

theorem rat_floor_eq_floor (q : ℚ) : Rat.floor q = ⌊q⌋ := rfl

theorem round1_int (n : ℤ) : round1 ((n : ℚ)) = 10 * n := by
  have h1 : (10:ℚ) * (n:ℚ) = ((10*n : ℤ) : ℚ) := by push_cast; ring
  have h2 : Rat.floor ((10:ℚ) * (n:ℚ)) = 10 * n := by
    rw [h1, rat_floor_eq_floor, Int.floor_intCast]
  unfold round1
  rw [h2, h1]
  simp

theorem round1_one : round1 (1:ℚ) = 10 := by
  have h : ((1:ℤ):ℚ) = (1:ℚ) := by norm_num
  rw [← h, round1_int]
  norm_num

theorem fmt1_one : fmt1 (1:ℚ) = "1.0" := by
  simp [fmt1, round1_one]
  rfl

theorem mean_from_one : (Sample.from 1).mean = 1 := by
  norm_num [Sample.mean, Sample.from]

theorem entryString_a : entryString ("a", Sample.from 1) = "a=1.0/1.0/1.0" := by
  have h : entryString ("a", Sample.from 1)
      = "a" ++ "=" ++ fmt1 1 ++ "/" ++ fmt1 ((Sample.from 1).mean) ++ "/" ++ fmt1 1 := rfl
  rw [h, mean_from_one, fmt1_one]
  rfl

theorem lib_report_a : lib_report [([97], Sample.from 1)] = "\x7ba=1.0/1.0/1.0\x7d\n" := by
  have h : lib_report [([97], Sample.from 1)]
      = "\x7b" ++ String.intercalate ", " [entryString ("a", Sample.from 1)] ++ "\x7d\n" := rfl
  rw [h, entryString_a]
  rfl

theorem main_report_a : main_report [([97], Sample.from 1)]
    = "\x7ba=1.0/1.0/1.0, \n\x7d\n" := by
  have h : main_report [([97], Sample.from 1)]
      = "\x7b" ++ String.join [entryString ("a", Sample.from 1) ++ ", \n"] ++ "\x7d\n" := rfl
  rw [h, entryString_a]
  rfl

/-- Claim C5 (amended): the report of src/src/lib.rs renders the table as a
single brace-wrapped newline-terminated line with keys decoded as text in
strictly increasing lexicographic order, every table key exactly once and
entries separated by ", "; the empty table renders as braces plus newline.
(The report in src/src/main.rs, which `main` applies to the final merged
table, instead emits ", \n" after every entry — see the counterexample.) -/
theorem lib_report_sorted_complete (t : Table)
    (hnd : ((tableKeys t).map decodeAscii).Nodup) :
    List.Sorted (fun a b => a < b) ((btreeOfTable t).map Prod.fst) ∧
    ((btreeOfTable t).map Prod.fst).Perm ((tableKeys t).map decodeAscii) ∧
    lib_report ([] : Table) = "\x7b\x7d\n" ∧
    lib_report [([97], Sample.from 1)] = "\x7ba=1.0/1.0/1.0\x7d\n" := by
  have hkeys : (t.map (fun p => (decodeAscii p.1, p.2))).map Prod.fst
      = (tableKeys t).map decodeAscii := by
    rw [List.map_map, tableKeys, List.map_map]
    rfl
  obtain ⟨hs, hp⟩ := btree_fold_spec (t.map (fun p => (decodeAscii p.1, p.2))) []
    (by rw [hkeys]; exact hnd) (by simp) (by simp)
  refine ⟨hs, ?_, rfl, lib_report_a⟩
  have hp2 := hp
  rw [hkeys] at hp2
  simpa using hp2

/-- Witness for C5: a one-entry table with ASCII key "a". -/
theorem lib_report_sorted_complete_witness :
    ((tableKeys [([97], Sample.from 1)]).map decodeAscii).Nodup ∧
    List.Sorted (fun a b => a < b)
      ((btreeOfTable [([97], Sample.from 1)]).map Prod.fst) := by
  have hnd : ((tableKeys [([97], Sample.from 1)]).map decodeAscii).Nodup := by
    simp [tableKeys, decodeAscii]
  exact ⟨hnd, (lib_report_sorted_complete [([97], Sample.from 1)] hnd).1⟩

/-- Counterexample for C5 as stated: the report `main` actually applies to
the final merged table emits ", \n" after every entry including the last,
so already a one-entry table renders with two newlines — not as a single
brace-wrapped line with ", " only between consecutive entries. -/
theorem main_report_not_single_line :
    main_report [([97], Sample.from 1)] = "\x7ba=1.0/1.0/1.0, \n\x7d\n" ∧
    ("\x7ba=1.0/1.0/1.0, \n\x7d\n".toList.count (Char.ofNat 10) = 2) := by
  exact ⟨main_report_a, by decide⟩

end Onebrc
